import Mathlib

/-!
Verification of the axis-algebra backend of candle-einops.

The embedded code is the candle implementation of the Backend capability in
src/backend/candle.rs together with the Operation enum of src/lib.rs.  A
tensor is modelled by its shape and a flat row-major data buffer.  The
numeric engine (candle_core) is an external collaborator that is not part of
the repository; its six primitives used by the backend (reshape, permute,
min, max, sum, mean, unsqueeze, repeat) are modelled from the engine
collaborator contract of the spec, each marked `Modelled from the spec`.
Reductions are modelled over rational data: the spec scopes the layer to
axis bookkeeping only, not numeric precision.
-/

/-- Reduction kinds, from the Operation enum in src/lib.rs.  Prod is declared
there but left unimplemented by the candle backend (TODO in
src/backend/candle.rs). -/
inductive Operation where
  | Min
  | Max
  | Sum
  | Mean
  | Prod
deriving DecidableEq

/-- Shallow model of a tensor value: dimension lengths (outermost first) and a
flat row-major data buffer, modelled as a total function on flat indices. -/
structure Tensor (α : Type) where
  shape : List Nat
  data : Nat → α

/-- Failure conditions.  The five engine kinds follow the error taxonomy of
the spec; IndexOutOfBounds models a Rust slice-indexing panic inside the
backend glue itself (the unguarded repeats[axis_pos] write in add_axes),
which is not an engine-level error. -/
inductive EngineError where
  | ShapeMismatch
  | InvalidPermutation
  | InvalidAxis
  | UnsupportedOperation
  | RankMismatch
  | IndexOutOfBounds
deriving DecidableEq

/-- Row-major flat index of a multi-index in a given shape. -/
def flatten : List Nat → List Nat → Nat
  | [], _ => 0
  | _ :: _, [] => 0
  | _ :: ds, i :: is => i * ds.prod + flatten ds is

/-- Multi-index of a row-major flat index in a given shape. -/
def unflatten : List Nat → Nat → List Nat
  | [], _ => []
  | _ :: ds, k => k / ds.prod :: unflatten ds (k % ds.prod)

/-- Validity of an axis permutation: a sequence of length rank whose entries
are exactly the axis indices below the rank. -/
def isPermutation (axes : List Nat) (r : Nat) : Prop :=
  axes.length = r ∧ axes.Nodup ∧ ∀ a ∈ axes, a < r

instance (axes : List Nat) (r : Nat) : Decidable (isPermutation axes r) := by
  unfold isPermutation
  exact inferInstance

/-- Modelled from the spec: the engine (candle_core, an external collaborator
not under src/) reinterprets the data under the new shape when the element
count is preserved and fails with the ShapeMismatch condition otherwise; the
flat data is not reordered. -/
def candle_reshape (t : Tensor α) (s : List Nat) : Except EngineError (Tensor α) :=
  if s.prod = t.shape.prod then .ok ⟨s, t.data⟩ else .error .ShapeMismatch

/-- Shape of a permuted tensor: axis `axes[i]` of the input becomes axis `i`
of the output. -/
def permuteShape (axes : List Nat) (s : List Nat) : List Nat :=
  axes.map fun a => s.getD a 0

/-- Input multi-index corresponding to output multi-index `j` of a permuted
tensor: the entry at input axis `axes[i]` is `j[i]`. -/
def permIndex (axes : List Nat) (j : List Nat) : List Nat :=
  (List.range axes.length).map fun pos => j.getD (axes.indexOf pos) 0

/-- Modelled from the spec: the engine permute returns the axis-permuted
tensor and fails with the InvalidPermutation condition when the sequence is
not a permutation of the axis indices. -/
def candle_permute (t : Tensor α) (axes : List Nat) : Except EngineError (Tensor α) :=
  if isPermutation axes t.shape.length then
    .ok ⟨permuteShape axes t.shape,
      fun k => t.data (flatten t.shape (permIndex axes (unflatten (permuteShape axes t.shape) k)))⟩
  else .error .InvalidPermutation

/-- Minimum of a list of rationals (0 on the empty list, which a reduction
never meets on a well-formed tensor). -/
def minList : List ℚ → ℚ
  | [] => 0
  | x :: xs => xs.foldl min x

/-- Maximum of a list of rationals. -/
def maxList : List ℚ → ℚ
  | [] => 0
  | x :: xs => xs.foldl max x

/-- Sum of a list of rationals. -/
def sumList (l : List ℚ) : ℚ := l.sum

/-- Arithmetic average of a list of rationals. -/
def meanList (l : List ℚ) : ℚ := l.sum / l.length

/-- Values along axis `a` of a tensor, at the reduced multi-index denoted by
flat index `k` of the reduced tensor. -/
def axisSlice (shape : List Nat) (data : Nat → ℚ) (a : Nat) (k : Nat) : List ℚ :=
  (List.range (shape.getD a 0)).map fun i =>
    data (flatten shape (List.insertIdx a i (unflatten (shape.eraseIdx a) k)))

/-- Modelled from the spec: the engine reduces one axis with a combining
function, removing that axis from the shape, and fails with the InvalidAxis
condition for an out-of-range axis index. -/
def candle_reduce (f : List ℚ → ℚ) (t : Tensor ℚ) (a : Nat) : Except EngineError (Tensor ℚ) :=
  if a < t.shape.length then
    .ok ⟨t.shape.eraseIdx a, fun k => f (axisSlice t.shape t.data a k)⟩
  else .error .InvalidAxis

/-- Engine min over one axis. -/
def candle_min (t : Tensor ℚ) (a : Nat) : Except EngineError (Tensor ℚ) :=
  candle_reduce minList t a

/-- Engine max over one axis. -/
def candle_max (t : Tensor ℚ) (a : Nat) : Except EngineError (Tensor ℚ) :=
  candle_reduce maxList t a

/-- Engine sum over one axis. -/
def candle_sum (t : Tensor ℚ) (a : Nat) : Except EngineError (Tensor ℚ) :=
  candle_reduce sumList t a

/-- Engine mean over one axis. -/
def candle_mean (t : Tensor ℚ) (a : Nat) : Except EngineError (Tensor ℚ) :=
  candle_reduce meanList t a

/-- Modelled from the spec: the engine inserts a new axis of length 1 at the
given position (valid positions run from 0 to the rank inclusive) and fails
with the InvalidAxis condition otherwise. -/
def candle_unsqueeze (t : Tensor α) (pos : Nat) : Except EngineError (Tensor α) :=
  if pos ≤ t.shape.length then
    .ok ⟨t.shape.insertIdx pos 1,
      fun k => t.data (flatten t.shape ((unflatten (t.shape.insertIdx pos 1) k).eraseIdx pos))⟩
  else .error .InvalidAxis

/-- Modelled from the spec: the engine repeat takes a per-axis multiplier
vector, scales each axis length by its multiplier and tiles the data
contiguously (the value at index i along an axis of original length d is the
original value at index i % d), failing with the RankMismatch condition when
the vector does not have exactly one entry per axis. -/
def candle_repeat (t : Tensor α) (mults : List Nat) : Except EngineError (Tensor α) :=
  if mults.length = t.shape.length then
    .ok ⟨List.zipWith (· * ·) mults t.shape,
      fun k => t.data (flatten t.shape
        (List.zipWith (fun ji di => ji % di) (unflatten (List.zipWith (· * ·) mults t.shape) k) t.shape))⟩
  else .error .RankMismatch

/-- Backend::shape of src/backend/candle.rs: the list of dimension lengths. -/
def shape (t : Tensor α) : List Nat :=
  t.shape

/-- Backend::reshape of src/backend/candle.rs: delegates to the engine
reshape; the unwrap in the source surfaces an engine failure unchanged. -/
def reshape (t : Tensor α) (s : List Nat) : Except EngineError (Tensor α) :=
  candle_reshape t s

/-- Backend::transpose of src/backend/candle.rs: delegates to the engine
permute. -/
def transpose (t : Tensor α) (axes : List Nat) : Except EngineError (Tensor α) :=
  candle_permute t axes

/-- Ascending stable sort of the axis-operation list by axis index, as
performed in place by reduce_axes on its argument slice (sort_by_key). -/
def sortOps (axesOperations : List (Nat × Operation)) : List (Nat × Operation) :=
  axesOperations.mergeSort fun x y => decide (x.1 ≤ y.1)

/-- Contents of the caller-supplied axes_operations slice after a call to
reduce_axes: the source sorts the slice in place before processing, the only
mutation the function performs on its arguments. -/
def reduce_axes_sliceAfter (axesOperations : List (Nat × Operation)) : List (Nat × Operation) :=
  sortOps axesOperations

/-- One step of the reduce_axes loop: dispatch on the Operation of the pair.
The Rust match in src/backend/candle.rs has arms for Min, Max, Sum and Mean
only; the Prod arm is modelled from the spec (Prod is declared in src/lib.rs
but left as a TODO in the backend, and the spec mandates the
UnsupportedOperation condition for it, never a silent default). -/
def applyOp (output : Tensor ℚ) (p : Nat × Operation) : Except EngineError (Tensor ℚ) :=
  match p.2 with
  | .Min => candle_min output p.1
  | .Max => candle_max output p.1
  | .Sum => candle_sum output p.1
  | .Mean => candle_mean output p.1
  | .Prod => .error .UnsupportedOperation

/-- Sequential processing of an axis-operation list, threading the tensor
value through the steps and stopping at the first failure. -/
def processOps (l : List (Nat × Operation)) (t : Tensor ℚ) : Except EngineError (Tensor ℚ) :=
  l.foldlM applyOp t

/-- Backend::reduce_axes of src/backend/candle.rs: sorts the pair list
ascending by axis index, then applies the reductions one at a time while
iterating over the sorted list in reverse (descending axis order). -/
def reduce_axes (t : Tensor ℚ) (axesOperations : List (Nat × Operation)) :
    Except EngineError (Tensor ℚ) :=
  processOps (sortOps axesOperations).reverse t

/-- Loop of add_axes: unsqueeze at each position and record the requested
length in the repeats vector.  The write repeats[axis_pos] in the source is
an unguarded Rust slice index; a position not below the vector length is
modelled by the IndexOutOfBounds panic.  The unsqueeze runs first, exactly as
in the source. -/
def add_axes_loop (output : Tensor α) (repeats : List Nat) :
    List (Nat × Nat) → Except EngineError (Tensor α × List Nat)
  | [] => .ok (output, repeats)
  | (pos, len) :: rest =>
    match candle_unsqueeze output pos with
    | .error e => .error e
    | .ok out =>
      if pos < repeats.length then add_axes_loop out (repeats.set pos len) rest
      else .error .IndexOutOfBounds

/-- Backend::add_axes of src/backend/candle.rs: starts from a repeats vector
of naxes ones, inserts a size-1 axis at each given position while recording
the requested length, then performs one engine repeat pass. -/
def add_axes (t : Tensor α) (naxes : Nat) (pos2len : List (Nat × Nat)) :
    Except EngineError (Tensor α) :=
  match add_axes_loop t (List.replicate naxes 1) pos2len with
  | .error e => .error e
  | .ok (output, repeats) => candle_repeat output repeats

/-- Shape of the tensor inside a successful result (empty list on failure). -/
def okShape : Except EngineError (Tensor α) → List Nat
  | .ok t => t.shape
  | .error _ => []

/-- First n flat data entries of the tensor inside a successful result. -/
def okDataList : Except EngineError (Tensor α) → Nat → List α
  | .ok t, n => (List.range n).map t.data
  | .error _, _ => []

/-- Flat data entry of the tensor inside a successful result, with an
explicit default for the failure case. -/
def okData (d : α) : Except EngineError (Tensor α) → Nat → α
  | .ok t, k => t.data k
  | .error _, _ => d

/-- Shape obtained by removing the listed axes, every axis named in the
numbering of the original shape. -/
def removeAxes (s : List Nat) (axes : List Nat) : List Nat :=
  ((List.range s.length).filter fun i => decide (i ∉ axes)).map fun i => s.getD i 0

/-- Positions of an add_axes call that are valid in the sense of the spec:
each position is interpreted against the axis numbering after all prior
insertions of the same call, so it may not exceed the rank the tensor has
reached at its step. -/
def validPositions : Nat → List (Nat × Nat) → Prop
  | _, [] => True
  | r, q :: rest => q.1 ≤ r ∧ validPositions (r + 1) rest

instance instDecidableValidPositions : ∀ (r : Nat) (l : List (Nat × Nat)), Decidable (validPositions r l)
  | _, [] => .isTrue trivial
  | r, _ :: rest =>
    have : Decidable (validPositions (r + 1) rest) := instDecidableValidPositions (r + 1) rest
    by unfold validPositions; exact inferInstance

/-- Inverse of an axis permutation given as a list: entry i is the position
of i inside p. -/
def invPerm (p : List Nat) : List Nat :=
  (List.range p.length).map fun i => p.indexOf i

/-- Rank-3 tensor of shape [1,2,3] holding 0..5, the input of the add_axes
test of the repository. -/
def t123 : Tensor Int :=
  ⟨[1, 2, 3], fun k => (k : Int)⟩

/-- Rank-1 tensor of shape [2]. -/
def t2v : Tensor Int :=
  ⟨[2], fun k => (k : Int)⟩

/-- Rank-2 tensor of shape [2,3]. -/
def t23 : Tensor Int :=
  ⟨[2, 3], fun k => (k : Int)⟩

/-- Rank-3 tensor of shape [2,3,4] holding 0..23. -/
def t234 : Tensor Int :=
  ⟨[2, 3, 4], fun k => (k : Int)⟩

/-- Rank-3 rational tensor of shape [4,2,3] holding 0..23. -/
def t423 : Tensor ℚ :=
  ⟨[4, 2, 3], fun k => (k : ℚ)⟩

/-- Rank-2 rational tensor of shape [2,2]. -/
def tc22 : Tensor ℚ :=
  ⟨[2, 2], fun k => (k : ℚ)⟩

/-- One period of the tiling produced by the add_axes test of the
repository: the block 0..5 of shape [1,2,3] tiled 3 times along the last
inserted axis. -/
def block18 : List Int :=
  [0, 1, 2, 0, 1, 2, 0, 1, 2, 3, 4, 5, 3, 4, 5, 3, 4, 5]

/-- Expected flat data of add_axes on t123 with target rank 5 and insertions
(0,5) and (3,3): the 18-entry block tiled 5 times, from the repository test. -/
def tiled90 : List Int :=
  (List.replicate 5 block18).flatten

/-- Entries strictly below an erased position are unshifted. -/
theorem getD_eraseIdx_lt (s : List Nat) (a i : Nat) (h : i < a) :
    (s.eraseIdx a).getD i 0 = s.getD i 0 := by
  induction s generalizing a i with
  | nil => rfl
  | cons x xs ih =>
    cases a with
    | zero => omega
    | succ a =>
      cases i with
      | zero => rfl
      | succ i =>
        rw [List.eraseIdx_cons_succ, List.getD_cons_succ, List.getD_cons_succ]
        exact ih a i (by omega)

/-- Entries at or above an erased position are shifted down by one. -/
theorem getD_eraseIdx_ge (s : List Nat) (a i : Nat) (ha : a < s.length) (h : a ≤ i) :
    (s.eraseIdx a).getD i 0 = s.getD (i + 1) 0 := by
  induction s generalizing a i with
  | nil => simp at ha
  | cons x xs ih =>
    cases a with
    | zero => rw [List.eraseIdx_cons_zero, List.getD_cons_succ]
    | succ a =>
      cases i with
      | zero => omega
      | succ i =>
        rw [List.eraseIdx_cons_succ, List.getD_cons_succ, List.getD_cons_succ]
        exact ih a i (by simpa using ha) (by omega)

/-- Entries strictly below an insertion position are unshifted. -/
theorem getD_insertIdx_lt (s : List Nat) (p i x : Nat) (h : i < p) :
    (s.insertIdx p x).getD i 0 = s.getD i 0 := by
  induction s generalizing p i with
  | nil =>
    cases p with
    | zero => omega
    | succ p => rw [List.insertIdx_succ_nil]
  | cons y ys ih =>
    cases p with
    | zero => omega
    | succ p =>
      rw [List.insertIdx_succ_cons]
      cases i with
      | zero => rfl
      | succ i =>
        rw [List.getD_cons_succ, List.getD_cons_succ]
        exact ih p i (by omega)

/-- The entry at a valid insertion position is the inserted value. -/
theorem getD_insertIdx_self (s : List Nat) (p x : Nat) (hp : p ≤ s.length) :
    (s.insertIdx p x).getD p 0 = x := by
  have hlen : p < (s.insertIdx p x).length := by
    rw [List.length_insertIdx p s hp]; omega
  rw [List.getD_eq_getElem _ _ hlen]
  exact List.getElem_insertIdx_self s x p hp hlen

/-- Reading every position of a list back in order yields the list. -/
theorem range_map_getD (s : List Nat) :
    (List.range s.length).map (fun i => s.getD i 0) = s := by
  apply List.ext_getElem
  · simp
  · intro n h1 h2
    simp only [List.getElem_map, List.getElem_range]
    exact List.getD_eq_getElem s 0 h2

/-- Removing no axis keeps the shape. -/
theorem removeAxes_nil (s : List Nat) : removeAxes s [] = s := by
  unfold removeAxes
  rw [List.filter_eq_self.mpr (by intro x _; simp)]
  exact range_map_getD s

/-- The removed shape depends only on membership in the axis list. -/
theorem removeAxes_congr (s : List Nat) (axes₁ axes₂ : List Nat)
    (h : ∀ i, i ∈ axes₁ ↔ i ∈ axes₂) :
    removeAxes s axes₁ = removeAxes s axes₂ := by
  unfold removeAxes
  have hpq : ∀ x ∈ List.range s.length, decide (x ∉ axes₁) = decide (x ∉ axes₂) :=
    fun x _ => decide_eq_decide.mpr (not_congr (h x))
  rw [List.filter_congr hpq]

/-- Masking out axes strictly below an erased axis commutes with the erasure:
the erased list with the lower axes removed is the original shape with the
whole set removed.  This is the index-stability fact behind descending-order
processing: removal of axis a shifts only indices greater than a. -/
theorem removeAxes_eraseIdx (s : List Nat) (a : Nat) (axes : List Nat)
    (ha : a < s.length) (hlt : ∀ b ∈ axes, b < a) :
    removeAxes (s.eraseIdx a) axes = removeAxes s (a :: axes) := by
  have hnotmem : ∀ x : Nat, a ≤ x → x ∉ axes := by
    intro x hax hmem
    exact absurd (hlt x hmem) (by omega)
  unfold removeAxes
  have hn : (s.eraseIdx a).length = s.length - 1 := by
    rw [List.length_eraseIdx]; simp [ha]
  rw [hn]
  have hsplitL : List.range (s.length - 1) =
      List.range' 0 a ++ List.range' a (s.length - 1 - a) := by
    rw [List.range_eq_range']
    have h1 : s.length - 1 = (s.length - 1 - a) + a := by omega
    rw [h1, ← List.range'_append 0 a (s.length - 1 - a) 1]
    simp
  have hsplitR : List.range s.length =
      List.range' 0 a ++ (a :: List.range' (a + 1) (s.length - 1 - a)) := by
    rw [List.range_eq_range']
    have h1 : s.length = ((s.length - 1 - a) + 1) + a := by omega
    rw [h1, ← List.range'_append 0 a ((s.length - 1 - a) + 1) 1]
    simp [List.range'_succ]
  rw [hsplitL, hsplitR, List.filter_append, List.filter_append,
    List.map_append, List.map_append]
  congr 1
  · have hfilter :
        (List.range' 0 a).filter (fun i => decide (i ∉ axes)) =
        (List.range' 0 a).filter (fun i => decide (i ∉ a :: axes)) := by
      apply List.filter_congr
      intro x hx
      have hxa : x < a := by
        have := List.mem_range'_1.mp hx; omega
      have hne : x ≠ a := by omega
      apply decide_eq_decide.mpr
      simp [List.mem_cons, hne]
    rw [hfilter]
    apply List.map_congr_left
    intro x hx
    have hx' : x ∈ List.range' 0 a := List.mem_of_mem_filter hx
    have hxa : x < a := by
      have := List.mem_range'_1.mp hx'; omega
    exact getD_eraseIdx_lt s a x hxa
  · have hhead :
        (a :: List.range' (a + 1) (s.length - 1 - a)).filter (fun i => decide (i ∉ a :: axes)) =
        (List.range' (a + 1) (s.length - 1 - a)).filter (fun i => decide (i ∉ a :: axes)) := by
      rw [List.filter_cons]
      simp
    rw [hhead]
    have hselfR :
        (List.range' (a + 1) (s.length - 1 - a)).filter (fun i => decide (i ∉ a :: axes)) =
        List.range' (a + 1) (s.length - 1 - a) := by
      apply List.filter_eq_self.mpr
      intro x hx
      have hxa : a + 1 ≤ x := (List.mem_range'_1.mp hx).1
      have hne : x ≠ a := by omega
      simp [List.mem_cons, hne]
      exact hnotmem x (by omega)
    have hselfL :
        (List.range' a (s.length - 1 - a)).filter (fun i => decide (i ∉ axes)) =
        List.range' a (s.length - 1 - a) := by
      apply List.filter_eq_self.mpr
      intro x hx
      have hxa : a ≤ x := (List.mem_range'_1.mp hx).1
      simp
      exact hnotmem x hxa
    rw [hselfR, hselfL]
    have hshift : List.range' (a + 1) (s.length - 1 - a) =
        List.map (fun x => 1 + x) (List.range' a (s.length - 1 - a)) := by
      rw [List.map_add_range', Nat.add_comm]
    rw [hshift, List.map_map]
    apply List.map_congr_left
    intro x hx
    have hxa : a ≤ x := (List.mem_range'_1.mp hx).1
    rw [getD_eraseIdx_ge s a x ha hxa]
    simp [Function.comp, Nat.add_comm]

/-- Bind on a successful Except value. -/
theorem exceptBindOk {ε α β : Type} (a : α) (f : α → Except ε β) :
    (Except.ok a >>= f : Except ε β) = f a := rfl

/-- Bind on a failed Except value. -/
theorem exceptBindError {ε α β : Type} (e : ε) (f : α → Except ε β) :
    (Except.error e >>= f : Except ε β) = Except.error e := rfl

/-- The engine reduce on a valid axis, spelled out. -/
theorem candle_reduce_ok (f : List ℚ → ℚ) (t : Tensor ℚ) (a : Nat) (ha : a < t.shape.length) :
    candle_reduce f t a = .ok ⟨t.shape.eraseIdx a, fun k => f (axisSlice t.shape t.data a k)⟩ := by
  unfold candle_reduce
  rw [if_pos ha]

/-- One reduce_axes step on an in-range pair whose kind is not Prod succeeds
and erases that axis from the shape. -/
theorem applyOp_ok (t : Tensor ℚ) (p : Nat × Operation)
    (ha : p.1 < t.shape.length) (hop : p.2 ≠ Operation.Prod) :
    ∃ t', applyOp t p = .ok t' ∧ t'.shape = t.shape.eraseIdx p.1 := by
  obtain ⟨a, op⟩ := p
  cases op with
  | Min => exact ⟨_, candle_reduce_ok minList t a ha, rfl⟩
  | Max => exact ⟨_, candle_reduce_ok maxList t a ha, rfl⟩
  | Sum => exact ⟨_, candle_reduce_ok sumList t a ha, rfl⟩
  | Mean => exact ⟨_, candle_reduce_ok meanList t a ha, rfl⟩
  | Prod => exact absurd rfl hop

/-- Processing a strictly descending list of in-range non-Prod pairs
succeeds, and the result shape is the original shape with the named axes
removed, every axis named in the numbering of the original shape. -/
theorem processOps_ok (l : List (Nat × Operation)) (t : Tensor ℚ)
    (hdesc : l.Pairwise fun x y => y.1 < x.1)
    (hrange : ∀ p ∈ l, p.1 < t.shape.length)
    (hprod : ∀ p ∈ l, p.2 ≠ Operation.Prod) :
    ∃ t', processOps l t = .ok t' ∧ t'.shape = removeAxes t.shape (l.map fun p => p.1) := by
  induction l generalizing t with
  | nil => exact ⟨t, rfl, (removeAxes_nil t.shape).symm⟩
  | cons p rest ih =>
    have hhead_range := hrange p (List.mem_cons_self p rest)
    obtain ⟨t₁, h1, hs1⟩ := applyOp_ok t p hhead_range (hprod p (List.mem_cons_self p rest))
    have hhead_gt : ∀ q ∈ rest, q.1 < p.1 := (List.pairwise_cons.mp hdesc).1
    have hlen1 : t₁.shape.length = t.shape.length - 1 := by
      rw [hs1, List.length_eraseIdx]; simp [hhead_range]
    have hrest_range : ∀ q ∈ rest, q.1 < t₁.shape.length := by
      intro q hq
      have h2 := hhead_gt q hq
      omega
    obtain ⟨t', h2, hs2⟩ := ih t₁ hdesc.of_cons hrest_range
      (fun q hq => hprod q (List.mem_cons_of_mem p hq))
    refine ⟨t', ?_, ?_⟩
    · show List.foldlM applyOp t (p :: rest) = .ok t'
      rw [List.foldlM_cons, h1, exceptBindOk]
      exact h2
    · rw [hs2, hs1, List.map_cons]
      exact removeAxes_eraseIdx t.shape p.1 (rest.map fun q => q.1) hhead_range (by
        intro b hb
        obtain ⟨q, hq, rfl⟩ := List.mem_map.mp hb
        exact hhead_gt q hq)

/-- Processing a strictly descending list of in-range pairs that contains a
Prod pair fails with the UnsupportedOperation condition. -/
theorem processOps_prodError (l : List (Nat × Operation)) (t : Tensor ℚ)
    (hdesc : l.Pairwise fun x y => y.1 < x.1)
    (hrange : ∀ p ∈ l, p.1 < t.shape.length)
    (hprod : ∃ p ∈ l, p.2 = Operation.Prod) :
    processOps l t = .error .UnsupportedOperation := by
  induction l generalizing t with
  | nil => simp at hprod
  | cons p rest ih =>
    by_cases hp : p.2 = Operation.Prod
    · have herr : applyOp t p = .error .UnsupportedOperation := by
        obtain ⟨a, op⟩ := p
        cases hp
        rfl
      show List.foldlM applyOp t (p :: rest) = .error .UnsupportedOperation
      rw [List.foldlM_cons, herr, exceptBindError]
    · have hhead_range := hrange p (List.mem_cons_self p rest)
      obtain ⟨t₁, h1, hs1⟩ := applyOp_ok t p hhead_range hp
      have hhead_gt : ∀ q ∈ rest, q.1 < p.1 := (List.pairwise_cons.mp hdesc).1
      have hlen1 : t₁.shape.length = t.shape.length - 1 := by
        rw [hs1, List.length_eraseIdx]; simp [hhead_range]
      have hrest_range : ∀ q ∈ rest, q.1 < t₁.shape.length := by
        intro q hq
        have h2 := hhead_gt q hq
        omega
      have hrest_prod : ∃ q ∈ rest, q.2 = Operation.Prod := by
        obtain ⟨q, hq, hq2⟩ := hprod
        rcases List.mem_cons.mp hq with hq | hq
        · exact absurd (hq ▸ hq2) hp
        · exact ⟨q, hq, hq2⟩
      show List.foldlM applyOp t (p :: rest) = .error .UnsupportedOperation
      rw [List.foldlM_cons, h1, exceptBindOk]
      exact ih t₁ hdesc.of_cons hrest_range hrest_prod

/-- The sorted axis-operation list is ascending by axis index. -/
theorem sortOps_sorted (l : List (Nat × Operation)) :
    (sortOps l).Pairwise fun x y => x.1 ≤ y.1 := by
  have htrans : ∀ a b c : Nat × Operation,
      decide (a.1 ≤ b.1) = true → decide (b.1 ≤ c.1) = true → decide (a.1 ≤ c.1) = true := by
    intro a b c h1 h2
    simp only [decide_eq_true_eq] at *
    omega
  have htotal : ∀ a b : Nat × Operation,
      (decide (a.1 ≤ b.1) || decide (b.1 ≤ a.1)) = true := by
    intro a b
    simp only [Bool.or_eq_true, decide_eq_true_eq]
    omega
  have h := List.sorted_mergeSort htrans htotal l
  exact h.imp fun hab => of_decide_eq_true hab

/-- The sorted axis-operation list is a permutation of the input. -/
theorem sortOps_perm (l : List (Nat × Operation)) : (sortOps l).Perm l :=
  List.mergeSort_perm l _

/-- An ascending list with pairwise distinct axis indices is strictly
ascending. -/
theorem pairwise_lt_of_le_nodupKeys (l : List (Nat × Operation))
    (hle : l.Pairwise fun x y => x.1 ≤ y.1) (hnd : (l.map fun p => p.1).Nodup) :
    l.Pairwise fun x y => x.1 < y.1 := by
  have hne : l.Pairwise fun x y => x.1 ≠ y.1 := List.pairwise_map.mp hnd
  exact (hle.and hne).imp fun h => lt_of_le_of_ne h.1 h.2

/-- Two strictly ascending lists that are permutations of each other are
equal. -/
theorem sorted_keyUnique (l₁ l₂ : List (Nat × Operation)) (hperm : l₁.Perm l₂)
    (h₁ : l₁.Pairwise fun x y => x.1 < y.1) (h₂ : l₂.Pairwise fun x y => x.1 < y.1) :
    l₁ = l₂ := by
  haveI : IsAntisymm (Nat × Operation) (fun x y => x.1 < y.1) :=
    ⟨fun a b hab hba => absurd hba (by omega)⟩
  exact List.eq_of_perm_of_sorted hperm h₁ h₂

/-- Sorting is determined by the multiset of pairs when axis indices are
unique: permuted inputs sort to the same list. -/
theorem sortOps_eq_of_perm (l₁ l₂ : List (Nat × Operation)) (hperm : l₁.Perm l₂)
    (hnd : (l₁.map fun p => p.1).Nodup) :
    sortOps l₁ = sortOps l₂ := by
  have hnd1 : ((sortOps l₁).map fun p => p.1).Nodup :=
    hnd.perm (((sortOps_perm l₁).map fun p => p.1).symm)
  have hnd2 : ((sortOps l₂).map fun p => p.1).Nodup :=
    (hnd.perm (hperm.map fun p => p.1)).perm (((sortOps_perm l₂).map fun p => p.1).symm)
  exact sorted_keyUnique _ _
    (((sortOps_perm l₁).trans hperm).trans (sortOps_perm l₂).symm)
    (pairwise_lt_of_le_nodupKeys _ (sortOps_sorted l₁) hnd1)
    (pairwise_lt_of_le_nodupKeys _ (sortOps_sorted l₂) hnd2)

/-- Characterization of a concrete sort result: the strictly ascending
rearrangement of the input is its sorted form. -/
theorem sortOps_eq_target (l target : List (Nat × Operation)) (hperm : l.Perm target)
    (hs : target.Pairwise fun x y => x.1 < y.1) : sortOps l = target := by
  have hnd_t : (target.map fun p => p.1).Nodup :=
    List.pairwise_map.mpr (hs.imp fun h => Nat.ne_of_lt h)
  have hnd_s : ((sortOps l).map fun p => p.1).Nodup :=
    (hnd_t.perm ((hperm.map fun p => p.1).symm)).perm
      (((sortOps_perm l).map fun p => p.1).symm)
  exact sorted_keyUnique _ _ ((sortOps_perm l).trans hperm)
    (pairwise_lt_of_le_nodupKeys _ (sortOps_sorted l) hnd_s) hs

/-- The multi-index of a flat index has one entry per axis. -/
theorem unflatten_length (s : List Nat) (k : Nat) : (unflatten s k).length = s.length := by
  induction s generalizing k with
  | nil => rfl
  | cons d ds ih => simp [unflatten, ih]

/-- Entries of the multi-index of an in-range flat index are in range. -/
theorem unflatten_getD_lt (s : List Nat) (k : Nat) (hk : k < s.prod) :
    ∀ i, i < s.length → (unflatten s k).getD i 0 < s.getD i 0 := by
  induction s generalizing k with
  | nil => intro i hi; simp at hi
  | cons d ds ih =>
    rw [List.prod_cons] at hk
    have hP : 0 < ds.prod := by
      rcases Nat.eq_zero_or_pos ds.prod with h | h
      · rw [h, Nat.mul_zero] at hk; omega
      · exact h
    intro i hi
    cases i with
    | zero =>
      show k / ds.prod < d
      rw [Nat.div_lt_iff_lt_mul hP]
      exact hk
    | succ i =>
      show (unflatten ds (k % ds.prod)).getD i 0 < ds.getD i 0
      exact ih (k % ds.prod) (Nat.mod_lt _ hP) i (by simpa using hi)

/-- Flattening the multi-index of an in-range flat index gives it back. -/
theorem flatten_unflatten (s : List Nat) (k : Nat) (hk : k < s.prod) :
    flatten s (unflatten s k) = k := by
  induction s generalizing k with
  | nil =>
    have hk0 : k = 0 := by simpa using Nat.lt_one_iff.mp (by simpa using hk)
    simp [hk0, flatten, unflatten]
  | cons d ds ih =>
    rw [List.prod_cons] at hk
    have hP : 0 < ds.prod := by
      rcases Nat.eq_zero_or_pos ds.prod with h | h
      · rw [h, Nat.mul_zero] at hk; omega
      · exact h
    show (k / ds.prod) * ds.prod + flatten ds (unflatten ds (k % ds.prod)) = k
    rw [ih (k % ds.prod) (Nat.mod_lt _ hP), Nat.mul_comm]
    exact Nat.div_add_mod k ds.prod

/-- The flat index of an everywhere-in-range multi-index is in range. -/
theorem flatten_lt (s idx : List Nat) (hlen : idx.length = s.length)
    (hb : ∀ i, i < s.length → idx.getD i 0 < s.getD i 0) :
    flatten s idx < s.prod := by
  induction s generalizing idx with
  | nil =>
    cases idx with
    | nil => simp [flatten]
    | cons i is => simp at hlen
  | cons d ds ih =>
    cases idx with
    | nil => simp at hlen
    | cons i is =>
      have h0 : i < d := hb 0 (by simp)
      have ht := ih is (by simpa using hlen) fun j hj => hb (j + 1) (by simpa using hj)
      show i * ds.prod + flatten ds is < (d :: ds).prod
      rw [List.prod_cons]
      calc i * ds.prod + flatten ds is < i * ds.prod + ds.prod := by omega
        _ = (i + 1) * ds.prod := by ring
        _ ≤ d * ds.prod := Nat.mul_le_mul_right _ h0

/-- Unflattening the flat index of an everywhere-in-range multi-index gives
it back. -/
theorem unflatten_flatten (s idx : List Nat) (hlen : idx.length = s.length)
    (hb : ∀ i, i < s.length → idx.getD i 0 < s.getD i 0) :
    unflatten s (flatten s idx) = idx := by
  induction s generalizing idx with
  | nil =>
    cases idx with
    | nil => rfl
    | cons i is => simp at hlen
  | cons d ds ih =>
    cases idx with
    | nil => simp at hlen
    | cons i is =>
      have hP : 0 < ds.prod := by
        apply List.prod_pos
        intro a ha
        obtain ⟨j, hj, rfl⟩ := List.mem_iff_getElem.mp ha
        have hjj := hb (j + 1) (by simpa using hj)
        rw [List.getD_cons_succ, List.getD_cons_succ] at hjj
        have hg : ds.getD j 0 = ds[j] := List.getD_eq_getElem ds 0 hj
        omega
      have hfl : flatten ds is < ds.prod :=
        flatten_lt ds is (by simpa using hlen) fun j hj => hb (j + 1) (by simpa using hj)
      show (i * ds.prod + flatten ds is) / ds.prod
          :: unflatten ds ((i * ds.prod + flatten ds is) % ds.prod) = i :: is
      have hdiv : (i * ds.prod + flatten ds is) / ds.prod = i := by
        rw [Nat.mul_comm i ds.prod, Nat.mul_add_div hP, Nat.div_eq_of_lt hfl]
        omega
      have hmod : (i * ds.prod + flatten ds is) % ds.prod = flatten ds is := by
        rw [Nat.mul_comm i ds.prod, Nat.mul_add_mod]
        exact Nat.mod_eq_of_lt hfl
      rw [hdiv, hmod, ih is (by simpa using hlen) fun j hj => hb (j + 1) (by simpa using hj)]

/-- A permutation of the axis indices contains every index below the rank. -/
theorem perm_mem_of_lt (p : List Nat) (r : Nat) (hp : isPermutation p r)
    (i : Nat) (hi : i < r) : i ∈ p := by
  obtain ⟨hlen, hnd, hmem⟩ := hp
  have hsub : p.toFinset ⊆ Finset.range r := fun x hx =>
    Finset.mem_range.mpr (hmem x (List.mem_toFinset.mp hx))
  have hcard : (Finset.range r).card ≤ p.toFinset.card := by
    rw [List.toFinset_card_of_nodup hnd, hlen, Finset.card_range]
  rw [← List.mem_toFinset, Finset.eq_of_subset_of_card_le hsub hcard]
  exact Finset.mem_range.mpr hi

/-- Reading a list at the index of a member gives the member back. -/
theorem getD_indexOf (p : List Nat) (i : Nat) (hi : i ∈ p) :
    p.getD (p.indexOf i) 0 = i := by
  have h := List.indexOf_lt_length.mpr hi
  rw [List.getD_eq_getElem _ _ h]
  exact List.indexOf_get h

/-- On a duplicate-free list, the index of the entry at a position is that
position. -/
theorem indexOf_getD (p : List Nat) (hnd : p.Nodup) (a : Nat) (ha : a < p.length) :
    p.indexOf (p.getD a 0) = a := by
  rw [List.getD_eq_getElem _ _ ha]
  simpa using List.get_indexOf hnd ⟨a, ha⟩

/-- The inverse permutation has the same length. -/
theorem invPerm_length (p : List Nat) : (invPerm p).length = p.length := by
  simp [invPerm]

/-- Entry i of the inverse permutation is the position of i inside p. -/
theorem invPerm_getD (p : List Nat) (i : Nat) (hi : i < p.length) :
    (invPerm p).getD i 0 = p.indexOf i := by
  unfold invPerm
  have hlen : i < ((List.range p.length).map fun j => p.indexOf j).length := by simpa using hi
  rw [List.getD_eq_getElem _ _ hlen]
  simp

/-- The inverse of a valid permutation is a valid permutation. -/
theorem invPerm_isPerm (p : List Nat) (r : Nat) (hp : isPermutation p r) :
    isPermutation (invPerm p) r := by
  obtain ⟨hlen, hnd, hmem⟩ := hp
  refine ⟨by simp [invPerm, hlen], ?_, ?_⟩
  · apply List.Nodup.map_on ?_ (List.nodup_range _)
    intro x hx y hy hxy
    have hxr : x < r := by rw [← hlen]; exact List.mem_range.mp hx
    have hyr : y < r := by rw [← hlen]; exact List.mem_range.mp hy
    have hx2 := getD_indexOf p x (perm_mem_of_lt p r ⟨hlen, hnd, hmem⟩ x hxr)
    have hy2 := getD_indexOf p y (perm_mem_of_lt p r ⟨hlen, hnd, hmem⟩ y hyr)
    rw [← hx2, ← hy2, hxy]
  · intro a ha
    obtain ⟨j, hj, rfl⟩ := List.mem_map.mp ha
    have hjr : j < r := by rw [← hlen]; exact List.mem_range.mp hj
    have := List.indexOf_lt_length.mpr (perm_mem_of_lt p r ⟨hlen, hnd, hmem⟩ j hjr)
    omega

/-- The index of i inside the inverse permutation is the entry of p at i. -/
theorem indexOf_invPerm (p : List Nat) (r : Nat) (hp : isPermutation p r)
    (i : Nat) (hi : i < r) : (invPerm p).indexOf i = p.getD i 0 := by
  obtain ⟨hlen, hnd, hmem⟩ := hp
  have hq := invPerm_isPerm p r ⟨hlen, hnd, hmem⟩
  have hpi_mem : p.getD i 0 ∈ p := by
    have hi' : i < p.length := by omega
    rw [List.getD_eq_getElem _ _ hi']
    exact List.getElem_mem hi'
  have hpi_lt : p.getD i 0 < r := hmem _ hpi_mem
  have hqval : (invPerm p).getD (p.getD i 0) 0 = i := by
    rw [invPerm_getD p _ (by omega)]
    exact indexOf_getD p hnd i (by omega)
  have h := indexOf_getD (invPerm p) hq.2.1 (p.getD i 0) (by rw [invPerm_length]; omega)
  rw [hqval] at h
  exact h

/-- The permuted shape has one entry per permutation entry. -/
theorem permuteShape_length (axes s : List Nat) :
    (permuteShape axes s).length = axes.length := by
  simp [permuteShape]

/-- Entry i of the permuted shape is the source length of axis `axes[i]`. -/
theorem permuteShape_getD (axes s : List Nat) (i : Nat) (hi : i < axes.length) :
    (permuteShape axes s).getD i 0 = s.getD (axes.getD i 0) 0 := by
  unfold permuteShape
  have hlen : i < (axes.map fun a => s.getD a 0).length := by simpa using hi
  rw [List.getD_eq_getElem _ _ hlen, List.getElem_map, ← List.getD_eq_getElem axes 0 hi]

/-- The permuted multi-index has one entry per permutation entry. -/
theorem permIndex_length (axes j : List Nat) :
    (permIndex axes j).length = axes.length := by
  simp [permIndex]

/-- Entry pos of the permuted multi-index reads j at the position of pos
inside the permutation. -/
theorem permIndex_getD (axes j : List Nat) (pos : Nat) (hpos : pos < axes.length) :
    (permIndex axes j).getD pos 0 = j.getD (axes.indexOf pos) 0 := by
  unfold permIndex
  have hlen : pos < ((List.range axes.length).map fun i => j.getD (axes.indexOf i) 0).length := by
    simpa using hpos
  rw [List.getD_eq_getElem _ _ hlen]
  simp

/-- Permuting a shape by p and then by the inverse of p gives it back. -/
theorem permuteShape_invPerm (p s : List Nat) (hp : isPermutation p s.length) :
    permuteShape (invPerm p) (permuteShape p s) = s := by
  apply List.ext_getElem
  · simp [permuteShape, invPerm, hp.1]
  · intro i h1 h2
    have hi : i < s.length := h2
    have hig : i < (invPerm p).length := by rw [invPerm_length, hp.1]; exact hi
    have himem : i ∈ p := perm_mem_of_lt p s.length hp i hi
    have hidx : p.indexOf i < p.length := List.indexOf_lt_length.mpr himem
    calc (permuteShape (invPerm p) (permuteShape p s))[i]
        = (permuteShape (invPerm p) (permuteShape p s)).getD i 0 :=
          (List.getD_eq_getElem _ _ h1).symm
      _ = (permuteShape p s).getD ((invPerm p).getD i 0) 0 :=
          permuteShape_getD (invPerm p) (permuteShape p s) i hig
      _ = (permuteShape p s).getD (p.indexOf i) 0 := by
          rw [invPerm_getD p i (by rw [hp.1]; exact hi)]
      _ = s.getD (p.getD (p.indexOf i) 0) 0 := permuteShape_getD p s _ hidx
      _ = s.getD i 0 := by rw [getD_indexOf p i himem]
      _ = s[i] := List.getD_eq_getElem _ _ h2

/-- Applying the index permutation of p after the one of the inverse of p is
the identity on multi-indices of matching length. -/
theorem permIndex_roundtrip (p : List Nat) (r : Nat) (hp : isPermutation p r)
    (j : List Nat) (hj : j.length = r) :
    permIndex p (permIndex (invPerm p) j) = j := by
  apply List.ext_getElem
  · simp [permIndex, hp.1, hj]
  · intro pos h1 h2
    have hposr : pos < r := by
      have := h2
      omega
    have hposmem : pos ∈ p := perm_mem_of_lt p r hp pos hposr
    have hidx : p.indexOf pos < p.length := List.indexOf_lt_length.mpr hposmem
    have hidxr : p.indexOf pos < r := by rw [← hp.1]; exact hidx
    calc (permIndex p (permIndex (invPerm p) j))[pos]
        = (permIndex p (permIndex (invPerm p) j)).getD pos 0 :=
          (List.getD_eq_getElem _ _ h1).symm
      _ = (permIndex (invPerm p) j).getD (p.indexOf pos) 0 :=
          permIndex_getD p _ pos (by rw [hp.1]; exact hposr)
      _ = j.getD ((invPerm p).indexOf (p.indexOf pos)) 0 :=
          permIndex_getD (invPerm p) j _ (by rw [invPerm_length]; exact hidx)
      _ = j.getD (p.getD (p.indexOf pos) 0) 0 := by
          rw [indexOf_invPerm p r hp (p.indexOf pos) hidxr]
      _ = j.getD pos 0 := by rw [getD_indexOf p pos hposmem]
      _ = j[pos] := List.getD_eq_getElem _ _ h2

/-- Roundtrip of the backend transpose: permuting by p and then by the
inverse of p restores shape and (on the valid flat range) the data. -/
theorem transpose_roundtrip_aux {α : Type} (t : Tensor α) (p : List Nat)
    (hp : isPermutation p t.shape.length) :
    ∃ t₁ t₂, transpose t p = .ok t₁ ∧ transpose t₁ (invPerm p) = .ok t₂ ∧
      t₁.shape = permuteShape p t.shape ∧ t₂.shape = t.shape ∧
      ∀ k, k < t.shape.prod → t₂.data k = t.data k := by
  have hr : p.length = t.shape.length := hp.1
  have h1 : transpose t p = .ok ⟨permuteShape p t.shape,
      fun k => t.data (flatten t.shape (permIndex p (unflatten (permuteShape p t.shape) k)))⟩ := by
    unfold transpose candle_permute
    rw [if_pos hp]
  set S₁ := permuteShape p t.shape with hS₁
  set D₁ : Nat → α :=
    fun k => t.data (flatten t.shape (permIndex p (unflatten S₁ k))) with hD₁
  have hS₁len : S₁.length = t.shape.length := by
    rw [hS₁, permuteShape_length, hr]
  have hq : isPermutation (invPerm p) ((⟨S₁, D₁⟩ : Tensor α).shape).length := by
    show isPermutation (invPerm p) S₁.length
    rw [hS₁len]
    exact invPerm_isPerm p t.shape.length hp
  have h2 : transpose (⟨S₁, D₁⟩ : Tensor α) (invPerm p) = .ok ⟨permuteShape (invPerm p) S₁,
      fun k => D₁ (flatten S₁ (permIndex (invPerm p) (unflatten (permuteShape (invPerm p) S₁) k)))⟩ := by
    unfold transpose candle_permute
    rw [if_pos hq]
  have hshape2 : permuteShape (invPerm p) S₁ = t.shape := permuteShape_invPerm p t.shape hp
  refine ⟨_, _, h1, h2, rfl, hshape2, ?_⟩
  intro k hk
  show D₁ (flatten S₁ (permIndex (invPerm p) (unflatten (permuteShape (invPerm p) S₁) k))) = t.data k
  rw [hshape2]
  set j := unflatten t.shape k with hj
  have hjlen : j.length = t.shape.length := unflatten_length t.shape k
  have hjlt : ∀ i, i < t.shape.length → j.getD i 0 < t.shape.getD i 0 :=
    unflatten_getD_lt t.shape k hk
  set w := permIndex (invPerm p) j with hw
  have hwlen : w.length = S₁.length := by
    rw [hw, permIndex_length, invPerm_length, hS₁len]
    exact hr
  have hwlt : ∀ i, i < S₁.length → w.getD i 0 < S₁.getD i 0 := by
    intro i hi
    have hir : i < t.shape.length := by rw [← hS₁len]; exact hi
    have hirp : i < p.length := by omega
    have hpi_mem : p.getD i 0 ∈ p := by
      rw [List.getD_eq_getElem _ _ hirp]
      exact List.getElem_mem hirp
    have hpi_lt : p.getD i 0 < t.shape.length := hp.2.2 _ hpi_mem
    have hwv : w.getD i 0 = j.getD (p.getD i 0) 0 := by
      rw [hw, permIndex_getD (invPerm p) j i (by rw [invPerm_length]; exact hirp),
        indexOf_invPerm p t.shape.length hp i hir]
    have hsv : S₁.getD i 0 = t.shape.getD (p.getD i 0) 0 := by
      rw [hS₁, permuteShape_getD p t.shape i hirp]
    rw [hwv, hsv]
    exact hjlt _ hpi_lt
  have hflat : flatten S₁ w < S₁.prod := flatten_lt S₁ w hwlen hwlt
  rw [hD₁]
  show t.data (flatten t.shape (permIndex p (unflatten S₁ (flatten S₁ w)))) = t.data k
  rw [unflatten_flatten S₁ w hwlen hwlt]
  rw [hw, permIndex_roundtrip p t.shape.length hp j hjlen]
  rw [hj, flatten_unflatten t.shape k hk]

/-- Read back the written entry of a list update. -/
theorem getD_set_self (l : List Nat) (i x : Nat) (hi : i < l.length) :
    (l.set i x).getD i 0 = x := by
  have h : i < (l.set i x).length := by rw [List.length_set]; exact hi
  rw [List.getD_eq_getElem _ _ h]
  exact List.getElem_set_self h

/-- Other entries of a list update are unchanged. -/
theorem getD_set_ne (l : List Nat) (i x j : Nat) (hne : i ≠ j) :
    (l.set i x).getD j 0 = l.getD j 0 := by
  by_cases hj : j < l.length
  · have h : j < (l.set i x).length := by rw [List.length_set]; exact hj
    rw [List.getD_eq_getElem _ _ h, List.getD_eq_getElem _ _ hj]
    exact List.getElem_set_ne hne h
  · rw [List.getD_eq_default _ _ (by rw [List.length_set]; omega),
      List.getD_eq_default _ _ (by omega)]

/-- The engine unsqueeze on a valid position, spelled out. -/
theorem candle_unsqueeze_ok {α : Type} (t : Tensor α) (pos : Nat)
    (h : pos ≤ t.shape.length) :
    candle_unsqueeze t pos = .ok ⟨t.shape.insertIdx pos 1,
      fun k => t.data (flatten t.shape ((unflatten (t.shape.insertIdx pos 1) k).eraseIdx pos))⟩ := by
  unfold candle_unsqueeze
  rw [if_pos h]

/-- The engine unsqueeze on an out-of-range position. -/
theorem candle_unsqueeze_err {α : Type} (t : Tensor α) (pos : Nat)
    (h : t.shape.length < pos) :
    candle_unsqueeze t pos = .error .InvalidAxis := by
  unfold candle_unsqueeze
  rw [if_neg (by omega)]

/-- One step of the add_axes loop on a valid unsqueeze position. -/
theorem add_axes_loop_step {α : Type} (output : Tensor α) (repeats : List Nat)
    (pos len : Nat) (rest : List (Nat × Nat)) (hpos : pos ≤ output.shape.length) :
    add_axes_loop output repeats ((pos, len) :: rest) =
      (if pos < repeats.length then
        add_axes_loop ⟨output.shape.insertIdx pos 1,
          fun k => output.data (flatten output.shape
            ((unflatten (output.shape.insertIdx pos 1) k).eraseIdx pos))⟩
          (repeats.set pos len) rest
      else .error .IndexOutOfBounds) := by
  show (match candle_unsqueeze output pos with
        | Except.error e => Except.error e
        | Except.ok out =>
          if pos < repeats.length then add_axes_loop out (repeats.set pos len) rest
          else Except.error EngineError.IndexOutOfBounds :
        Except EngineError (Tensor α × List Nat)) = _
  rw [candle_unsqueeze_ok output pos hpos]

/-- The add_axes loop succeeds on valid positions that stay below the repeats
vector length; the output rank grows by one per insertion and the repeats
vector keeps its length. -/
theorem add_axes_loop_ok {α : Type} (ps : List (Nat × Nat)) (output : Tensor α)
    (repeats : List Nat)
    (hvalid : validPositions output.shape.length ps)
    (hlt : ∀ q ∈ ps, q.1 < repeats.length) :
    ∃ out' reps', add_axes_loop output repeats ps = .ok (out', reps') ∧
      out'.shape.length = output.shape.length + ps.length ∧
      reps'.length = repeats.length := by
  induction ps generalizing output repeats with
  | nil => exact ⟨output, repeats, rfl, by simp, rfl⟩
  | cons q rest ih =>
    obtain ⟨pos, len⟩ := q
    obtain ⟨hpos, hrest⟩ := hvalid
    have hposlen : pos < repeats.length := hlt (pos, len) (List.mem_cons_self _ _)
    set out₁ : Tensor α := ⟨output.shape.insertIdx pos 1,
      fun k => output.data (flatten output.shape
        ((unflatten (output.shape.insertIdx pos 1) k).eraseIdx pos))⟩ with hout₁
    have hlen₁ : out₁.shape.length = output.shape.length + 1 := by
      show (output.shape.insertIdx pos 1).length = _
      exact List.length_insertIdx pos output.shape hpos
    obtain ⟨out', reps', heq, hl1, hl2⟩ := ih out₁ (repeats.set pos len)
      (by rw [hlen₁]; exact hrest)
      (by intro q hq; rw [List.length_set]; exact hlt q (List.mem_cons_of_mem _ hq))
    refine ⟨out', reps', ?_, by simp; omega, by rw [hl2, List.length_set]⟩
    rw [add_axes_loop_step output repeats pos len rest hpos, if_pos hposlen]
    exact heq

/-- The add_axes loop on strictly increasing valid positions: in addition to
succeeding, the final repeats vector holds the requested length at each
position, every inserted axis still sits at its position with length 1, and
untouched entries are preserved. -/
theorem add_axes_loop_strong {α : Type} (ps : List (Nat × Nat)) (output : Tensor α)
    (repeats : List Nat)
    (hvalid : validPositions output.shape.length ps)
    (hlt : ∀ q ∈ ps, q.1 < repeats.length)
    (hinc : ps.Pairwise fun q q' => q.1 < q'.1) :
    ∃ out' reps', add_axes_loop output repeats ps = .ok (out', reps') ∧
      out'.shape.length = output.shape.length + ps.length ∧
      reps'.length = repeats.length ∧
      (∀ j, (∀ q ∈ ps, q.1 ≠ j) → reps'.getD j 0 = repeats.getD j 0) ∧
      (∀ j, (∀ q ∈ ps, j < q.1) → out'.shape.getD j 0 = output.shape.getD j 0) ∧
      (∀ q ∈ ps, reps'.getD q.1 0 = q.2) ∧
      (∀ q ∈ ps, out'.shape.getD q.1 0 = 1) := by
  induction ps generalizing output repeats with
  | nil =>
    exact ⟨output, repeats, rfl, by simp, rfl, fun j _ => rfl, fun j _ => rfl,
      by simp, by simp⟩
  | cons q rest ih =>
    obtain ⟨pos, len⟩ := q
    obtain ⟨hpos, hrest⟩ := hvalid
    have hposlen : pos < repeats.length := hlt (pos, len) (List.mem_cons_self _ _)
    have hgt : ∀ q' ∈ rest, pos < q'.1 := (List.pairwise_cons.mp hinc).1
    set out₁ : Tensor α := ⟨output.shape.insertIdx pos 1,
      fun k => output.data (flatten output.shape
        ((unflatten (output.shape.insertIdx pos 1) k).eraseIdx pos))⟩ with hout₁
    have hlen₁ : out₁.shape.length = output.shape.length + 1 := by
      show (output.shape.insertIdx pos 1).length = _
      exact List.length_insertIdx pos output.shape hpos
    obtain ⟨out', reps', heq, hl1, hl2, hpre, hspre, hrget, hsget⟩ :=
      ih out₁ (repeats.set pos len)
        (by rw [hlen₁]; exact hrest)
        (by intro q hq; rw [List.length_set]; exact hlt q (List.mem_cons_of_mem _ hq))
        hinc.of_cons
    refine ⟨out', reps', ?_, by simp; omega, by rw [hl2, List.length_set],
      ?_, ?_, ?_, ?_⟩
    · rw [add_axes_loop_step output repeats pos len rest hpos, if_pos hposlen]
      exact heq
    · intro j hj
      rw [hpre j fun q hq => hj q (List.mem_cons_of_mem _ hq),
        getD_set_ne repeats pos len j (hj (pos, len) (List.mem_cons_self _ _))]
    · intro j hj
      rw [hspre j fun q hq => hj q (List.mem_cons_of_mem _ hq)]
      show (output.shape.insertIdx pos 1).getD j 0 = output.shape.getD j 0
      exact getD_insertIdx_lt output.shape pos j 1 (hj (pos, len) (List.mem_cons_self _ _))
    · intro q hq
      rcases List.mem_cons.mp hq with rfl | hq2
      · show reps'.getD pos 0 = len
        rw [hpre pos fun q2 hq2 => Nat.ne_of_gt (hgt q2 hq2),
          getD_set_self repeats pos len hposlen]
      · exact hrget q hq2
    · intro q hq
      rcases List.mem_cons.mp hq with rfl | hq2
      · show out'.shape.getD pos 0 = 1
        rw [hspre pos fun q2 hq2 => hgt q2 hq2]
        show (output.shape.insertIdx pos 1).getD pos 0 = 1
        exact getD_insertIdx_self output.shape pos 1 hpos
      · exact hsget q hq2

/-- The engine repeat with one multiplier per axis, spelled out. -/
theorem candle_repeat_ok {α : Type} (t : Tensor α) (mults : List Nat)
    (h : mults.length = t.shape.length) :
    candle_repeat t mults = .ok ⟨List.zipWith (· * ·) mults t.shape,
      fun k => t.data (flatten t.shape
        (List.zipWith (fun ji di => ji % di)
          (unflatten (List.zipWith (· * ·) mults t.shape) k) t.shape))⟩ := by
  unfold candle_repeat
  rw [if_pos h]

/-- The engine repeat with a multiplier vector of the wrong length. -/
theorem candle_repeat_err {α : Type} (t : Tensor α) (mults : List Nat)
    (h : mults.length ≠ t.shape.length) :
    candle_repeat t mults = .error .RankMismatch := by
  unfold candle_repeat
  rw [if_neg h]

/-- Pointwise read of an elementwise product of two lists. -/
theorem getD_zipWith_mul (a b : List Nat) (i : Nat) (ha : i < a.length) (hb : i < b.length) :
    (List.zipWith (· * ·) a b).getD i 0 = a.getD i 0 * b.getD i 0 := by
  have h : i < (List.zipWith (· * ·) a b).length := by
    rw [List.length_zipWith]
    exact lt_min ha hb
  rw [List.getD_eq_getElem _ _ h, List.getElem_zipWith,
    ← List.getD_eq_getElem a 0 ha, ← List.getD_eq_getElem b 0 hb]

/-- add_axes when its insertion loop succeeds: one repeat pass remains. -/
theorem add_axes_unfold_ok {α : Type} (t : Tensor α) (naxes : Nat)
    (ps : List (Nat × Nat)) (o : Tensor α) (r : List Nat)
    (h : add_axes_loop t (List.replicate naxes 1) ps = .ok (o, r)) :
    add_axes t naxes ps = candle_repeat o r := by
  show (match add_axes_loop t (List.replicate naxes 1) ps with
        | Except.error e => Except.error e
        | Except.ok (output, repeats) => candle_repeat output repeats :
        Except EngineError (Tensor α)) = _
  rw [h]

/-- add_axes when its insertion loop fails: the failure propagates. -/
theorem add_axes_unfold_err {α : Type} (t : Tensor α) (naxes : Nat)
    (ps : List (Nat × Nat)) (e : EngineError)
    (h : add_axes_loop t (List.replicate naxes 1) ps = .error e) :
    add_axes t naxes ps = .error e := by
  show (match add_axes_loop t (List.replicate naxes 1) ps with
        | Except.error e => Except.error e
        | Except.ok (output, repeats) => candle_repeat output repeats :
        Except EngineError (Tensor α)) = _
  rw [h]

/-- The add_axes loop never raises the slice-indexing panic when every
position is below the repeats vector length. -/
theorem add_axes_loop_no_oob {α : Type} (ps : List (Nat × Nat)) (output : Tensor α)
    (repeats : List Nat) (hlt : ∀ q ∈ ps, q.1 < repeats.length) :
    add_axes_loop output repeats ps ≠ .error .IndexOutOfBounds := by
  induction ps generalizing output repeats with
  | nil => exact fun hc => Except.noConfusion hc
  | cons q rest ih =>
    obtain ⟨pos, len⟩ := q
    cases hu : candle_unsqueeze output pos with
    | error e =>
      have he : e = EngineError.InvalidAxis := by
        unfold candle_unsqueeze at hu
        by_cases hp : pos ≤ output.shape.length
        · rw [if_pos hp] at hu
          exact Except.noConfusion hu
        · rw [if_neg hp] at hu
          injection hu with h
          exact h.symm
      have hl : add_axes_loop output repeats ((pos, len) :: rest) = .error e := by
        show (match candle_unsqueeze output pos with
              | Except.error e => Except.error e
              | Except.ok out =>
                if pos < repeats.length then add_axes_loop out (repeats.set pos len) rest
                else Except.error EngineError.IndexOutOfBounds :
              Except EngineError (Tensor α × List Nat)) = _
        rw [hu]
      rw [hl, he]
      intro hc
      injection hc with h2
      exact absurd h2 (by decide)
    | ok out =>
      have hposlen : pos < repeats.length := hlt (pos, len) (List.mem_cons_self _ _)
      have hstep : add_axes_loop output repeats ((pos, len) :: rest) =
          add_axes_loop out (repeats.set pos len) rest := by
        show (match candle_unsqueeze output pos with
              | Except.error e => Except.error e
              | Except.ok out =>
                if pos < repeats.length then add_axes_loop out (repeats.set pos len) rest
                else Except.error EngineError.IndexOutOfBounds :
              Except EngineError (Tensor α × List Nat)) = _
        rw [hu]
        show (if pos < repeats.length then add_axes_loop out (repeats.set pos len) rest
              else Except.error EngineError.IndexOutOfBounds :
              Except EngineError (Tensor α × List Nat)) = _
        rw [if_pos hposlen]
      rw [hstep]
      exact ih out (repeats.set pos len)
        fun q hq => by rw [List.length_set]; exact hlt q (List.mem_cons_of_mem _ hq)

/-- A first insertion position at or above the repeats length but within the
current rank hits the unguarded slice index. -/
theorem add_axes_first_pos_oob {α : Type} (t : Tensor α) (naxes pos len : Nat)
    (rest : List (Nat × Nat)) (h1 : naxes ≤ pos) (h2 : pos ≤ t.shape.length) :
    add_axes t naxes ((pos, len) :: rest) = .error .IndexOutOfBounds := by
  apply add_axes_unfold_err
  rw [add_axes_loop_step t (List.replicate naxes 1) pos len rest h2,
    if_neg (by rw [List.length_replicate]; omega)]

/-- A first insertion position beyond the current rank fails inside the
engine unsqueeze before the unguarded slice index is reached. -/
theorem add_axes_first_pos_invalid {α : Type} (t : Tensor α) (naxes pos len : Nat)
    (rest : List (Nat × Nat)) (h2 : t.shape.length < pos) :
    add_axes t naxes ((pos, len) :: rest) = .error .InvalidAxis := by
  apply add_axes_unfold_err
  show (match candle_unsqueeze t pos with
        | Except.error e => Except.error e
        | Except.ok out =>
          if pos < (List.replicate naxes 1).length then
            add_axes_loop out ((List.replicate naxes 1).set pos len) rest
          else Except.error EngineError.IndexOutOfBounds :
        Except EngineError (Tensor α × List Nat)) = _
  rw [candle_unsqueeze_err t pos h2]

/-- C6: reshape succeeds exactly when the product of the target shape equals
the product of the current shape; on success it is a pure reinterpretation
(target shape adopted, flat data untouched); otherwise it fails with the
ShapeMismatch condition surfaced to its immediate caller. -/
theorem C6_reshape_element_count {α : Type} (t : Tensor α) (s : List Nat) :
    ((∃ t', reshape t s = .ok t') ↔ s.prod = t.shape.prod) ∧
    (∀ t', reshape t s = .ok t' → t'.shape = s ∧ t'.data = t.data) ∧
    (s.prod ≠ t.shape.prod → reshape t s = .error .ShapeMismatch) := by
  unfold reshape candle_reshape
  by_cases h : s.prod = t.shape.prod
  · rw [if_pos h]
    refine ⟨⟨fun _ => h, fun _ => ⟨_, rfl⟩⟩, ?_, fun hne => absurd h hne⟩
    intro t' ht'
    injection ht' with h2
    rw [← h2]
    exact ⟨rfl, rfl⟩
  · rw [if_neg h]
    refine ⟨⟨?_, fun hp => absurd hp h⟩, ?_, fun _ => rfl⟩
    · rintro ⟨t', ht'⟩
      exact Except.noConfusion ht'
    · intro t' ht'
      exact Except.noConfusion ht'

/-- C6 witness: reshaping the six-element [2,3] tensor to [7] fails with
ShapeMismatch. -/
theorem C6_reshape_element_count_witness :
    reshape t23 [7] = Except.error EngineError.ShapeMismatch :=
  (C6_reshape_element_count t23 [7]).2.2 (by decide)

/-- C7: transpose given a sequence that is not a valid permutation of the
axis indices fails with the InvalidPermutation condition. -/
theorem C7_transpose_invalid_permutation {α : Type} (t : Tensor α) (axes : List Nat)
    (h : ¬ isPermutation axes t.shape.length) :
    transpose t axes = .error .InvalidPermutation := by
  unfold transpose candle_permute
  rw [if_neg h]

/-- C7 witness: the duplicate sequence [0,0,1] on a rank-3 tensor fails with
InvalidPermutation. -/
theorem C7_transpose_invalid_permutation_witness :
    transpose t234 [0, 0, 1] = Except.error EngineError.InvalidPermutation :=
  C7_transpose_invalid_permutation t234 [0, 0, 1] (by decide)

/-- C5: reduce_axes is invariant under reordering of the supplied pair list
when the axis indices are unique, because the list is sorted before
processing and sorting a permutation with unique keys is canonical. -/
theorem C5_reduce_axes_order_invariant (t : Tensor ℚ) (l l' : List (Nat × Operation))
    (hperm : l.Perm l') (hnd : (l.map fun p => p.1).Nodup) :
    reduce_axes t l = reduce_axes t l' := by
  unfold reduce_axes
  rw [sortOps_eq_of_perm l l' hperm hnd]

/-- C5 witness: reducing axes 0 and 2 with Min in either pair order gives
the same result on a concrete [4,2,3] tensor. -/
theorem C5_reduce_axes_order_invariant_witness :
    reduce_axes t423 [(0, Operation.Min), (2, Operation.Min)] =
      reduce_axes t423 [(2, Operation.Min), (0, Operation.Min)] :=
  C5_reduce_axes_order_invariant t423 _ _ (by decide) (by decide)

/-- C9: reduce_axes sorts its axes_operations slice in place ascending by
axis index before processing, so after every call the caller sees the sorted
rearrangement of the list it supplied (a caller-visible argument mutation,
modelled by the reduce_axes_sliceAfter function; the input tensor itself is
taken immutably).  On the concrete list [(2,Min),(0,Max)] the caller
observes a reordered list. -/
theorem C9_reduce_axes_sorts_slice :
    (∀ l : List (Nat × Operation),
      reduce_axes_sliceAfter l = sortOps l ∧
      (reduce_axes_sliceAfter l).Perm l ∧
      (reduce_axes_sliceAfter l).Pairwise (fun x y => x.1 ≤ y.1) ∧
      ∀ t : Tensor ℚ, reduce_axes t l = processOps (reduce_axes_sliceAfter l).reverse t) ∧
    reduce_axes_sliceAfter [(2, Operation.Min), (0, Operation.Max)] =
      [(0, Operation.Max), (2, Operation.Min)] ∧
    [(0, Operation.Max), (2, Operation.Min)] ≠ [(2, Operation.Min), (0, Operation.Max)] := by
  refine ⟨fun l => ⟨rfl, sortOps_perm l, sortOps_sorted l, fun t => rfl⟩, ?_, by decide⟩
  exact sortOps_eq_target _ _ (by decide) (by decide)

/-- C1: for unique in-range axis indices (with implementable, non-Prod
operations), reduce_axes first sorts the pair list ascending by axis index
and then applies the reductions over the reversed, descending list; every
not-yet-processed axis index keeps naming the same logical axis throughout,
so the call succeeds and the result shape is the original shape with exactly
the named axes removed, each named in the numbering of the original shape.
The final two conjuncts state the underlying shift fact: erasing axis k
moves only the entries at indices greater than k. -/
theorem C1_reduce_axes_ordering_contract (t : Tensor ℚ) (ops : List (Nat × Operation))
    (hnd : (ops.map fun p => p.1).Nodup)
    (hrange : ∀ p ∈ ops, p.1 < t.shape.length)
    (hprod : ∀ p ∈ ops, p.2 ≠ Operation.Prod) :
    reduce_axes t ops = processOps (sortOps ops).reverse t ∧
    (reduce_axes t ops).isOk = true ∧
    okShape (reduce_axes t ops) = removeAxes t.shape (ops.map fun p => p.1) ∧
    (∀ (s : List Nat) (k i : Nat), i < k → (s.eraseIdx k).getD i 0 = s.getD i 0) ∧
    (∀ (s : List Nat) (k i : Nat), k < s.length → k ≤ i →
      (s.eraseIdx k).getD i 0 = s.getD (i + 1) 0) := by
  have hsorted_lt := pairwise_lt_of_le_nodupKeys _ (sortOps_sorted ops)
    (hnd.perm (((sortOps_perm ops).map fun p => p.1).symm))
  have hdesc : (sortOps ops).reverse.Pairwise fun x y => y.1 < x.1 :=
    List.pairwise_reverse.mpr hsorted_lt
  have hmem : ∀ p, p ∈ (sortOps ops).reverse ↔ p ∈ ops := by
    intro p
    rw [List.mem_reverse]
    exact (sortOps_perm ops).mem_iff
  obtain ⟨t', heq, hsh⟩ := processOps_ok (sortOps ops).reverse t hdesc
    (fun p hp => hrange p ((hmem p).mp hp)) (fun p hp => hprod p ((hmem p).mp hp))
  refine ⟨rfl, ?_, ?_, fun s k i h => getD_eraseIdx_lt s k i h,
    fun s k i h1 h2 => getD_eraseIdx_ge s k i h1 h2⟩
  · show (processOps (sortOps ops).reverse t).isOk = true
    rw [heq]
    rfl
  · show okShape (processOps (sortOps ops).reverse t) = _
    rw [heq]
    show t'.shape = _
    rw [hsh]
    apply removeAxes_congr
    intro i
    simp only [List.mem_map]
    constructor
    · rintro ⟨p, hp, rfl⟩
      exact ⟨p, (hmem p).mp hp, rfl⟩
    · rintro ⟨p, hp, rfl⟩
      exact ⟨p, (hmem p).mpr hp, rfl⟩

/-- C1 witness: reducing the [4,2,3] tensor over the unsorted pair list
[(2,Min),(0,Max)] succeeds and removes exactly axes 0 and 2. -/
theorem C1_reduce_axes_ordering_contract_witness :
    reduce_axes t423 [(2, Operation.Min), (0, Operation.Max)] =
      processOps (sortOps [(2, Operation.Min), (0, Operation.Max)]).reverse t423 ∧
    (reduce_axes t423 [(2, Operation.Min), (0, Operation.Max)]).isOk = true ∧
    okShape (reduce_axes t423 [(2, Operation.Min), (0, Operation.Max)]) =
      removeAxes t423.shape ([(2, Operation.Min), (0, Operation.Max)].map fun p => p.1) ∧
    (∀ (s : List Nat) (k i : Nat), i < k → (s.eraseIdx k).getD i 0 = s.getD i 0) ∧
    (∀ (s : List Nat) (k i : Nat), k < s.length → k ≤ i →
      (s.eraseIdx k).getD i 0 = s.getD (i + 1) 0) :=
  C1_reduce_axes_ordering_contract t423 [(2, Operation.Min), (0, Operation.Max)]
    (by decide) (by decide) (by decide)

/-- C3 (amended): when the supplied axis indices are unique and in range,
any pair list containing a Prod operation makes reduce_axes fail with the
UnsupportedOperation condition (never a silent default to another
operation); the source tensor is taken immutably by the embedding, so it is
unchanged and usable afterwards. -/
theorem C3_reduce_axes_prod_unsupported (t : Tensor ℚ) (ops : List (Nat × Operation))
    (hnd : (ops.map fun p => p.1).Nodup)
    (hrange : ∀ p ∈ ops, p.1 < t.shape.length)
    (hprod : ∃ p ∈ ops, p.2 = Operation.Prod) :
    reduce_axes t ops = .error .UnsupportedOperation := by
  have hsorted_lt := pairwise_lt_of_le_nodupKeys _ (sortOps_sorted ops)
    (hnd.perm (((sortOps_perm ops).map fun p => p.1).symm))
  have hdesc : (sortOps ops).reverse.Pairwise fun x y => y.1 < x.1 :=
    List.pairwise_reverse.mpr hsorted_lt
  have hmem : ∀ p, p ∈ (sortOps ops).reverse ↔ p ∈ ops := by
    intro p
    rw [List.mem_reverse]
    exact (sortOps_perm ops).mem_iff
  show processOps (sortOps ops).reverse t = .error .UnsupportedOperation
  apply processOps_prodError (sortOps ops).reverse t hdesc
    (fun p hp => hrange p ((hmem p).mp hp))
  obtain ⟨p, hp, hp2⟩ := hprod
  exact ⟨p, (hmem p).mpr hp, hp2⟩

/-- C3 witness: a Prod pair on a valid axis of the [2,2] tensor fails with
UnsupportedOperation. -/
theorem C3_reduce_axes_prod_unsupported_witness :
    reduce_axes tc22 [(1, Operation.Prod)] = .error .UnsupportedOperation :=
  C3_reduce_axes_prod_unsupported tc22 [(1, Operation.Prod)]
    (by decide) (by decide) (by decide)

/-- C3 counterexample: the claim as stated quantifies over every pair list
containing Prod, but a list that also holds an out-of-range axis above the
Prod axis fails with InvalidAxis instead, because the descending processing
reaches the out-of-range axis first. -/
theorem C3_reduce_axes_prod_counterexample :
    reduce_axes tc22 [(0, Operation.Prod), (5, Operation.Min)] = .error .InvalidAxis ∧
    reduce_axes tc22 [(0, Operation.Prod), (5, Operation.Min)] ≠
      .error .UnsupportedOperation := by
  have hsort : sortOps [(0, Operation.Prod), (5, Operation.Min)] =
      [(0, Operation.Prod), (5, Operation.Min)] :=
    sortOps_eq_target _ _ (List.Perm.refl _) (by decide)
  have hval : reduce_axes tc22 [(0, Operation.Prod), (5, Operation.Min)] =
      .error .InvalidAxis := by
    show processOps (sortOps [(0, Operation.Prod), (5, Operation.Min)]).reverse tc22 = _
    rw [hsort]
    rfl
  refine ⟨hval, ?_⟩
  rw [hval]
  intro hc
  injection hc with h2
  exact absurd h2 (by decide)

/-- C4: for every tensor and every valid permutation p of its axis indices,
transpose by p succeeds, axis p[i] of the input becomes axis i of the
output, and a subsequent transpose by the inverse permutation restores both
the original shape and, on the whole valid flat range, the original element
values (the final conjunct holds for every default value, so it cannot be
satisfied by a failure). -/
theorem C4_transpose_roundtrip {α : Type} (t : Tensor α) (p : List Nat)
    (hp : isPermutation p t.shape.length) :
    (transpose t p).isOk = true ∧
    okShape (transpose t p) = permuteShape p t.shape ∧
    (∀ i, i < p.length →
      (okShape (transpose t p)).getD i 0 = t.shape.getD (p.getD i 0) 0) ∧
    (transpose t p >>= fun t₁ => transpose t₁ (invPerm p)).isOk = true ∧
    okShape (transpose t p >>= fun t₁ => transpose t₁ (invPerm p)) = t.shape ∧
    ∀ k, k < t.shape.prod → ∀ d : α,
      okData d (transpose t p >>= fun t₁ => transpose t₁ (invPerm p)) k = t.data k := by
  obtain ⟨t₁, t₂, h1, h2, hs1, hs2, hdata⟩ := transpose_roundtrip_aux t p hp
  have hbind : (transpose t p >>= fun u => transpose u (invPerm p)) = .ok t₂ := by
    rw [h1, exceptBindOk]
    exact h2
  refine ⟨by rw [h1]; rfl, by rw [h1]; exact hs1, ?_, by rw [hbind]; rfl,
    by rw [hbind]; exact hs2, ?_⟩
  · intro i hi
    rw [h1]
    show t₁.shape.getD i 0 = _
    rw [hs1]
    exact permuteShape_getD p t.shape i hi
  · intro k hk d
    rw [hbind]
    exact hdata k hk

/-- C4 witness: the permutation [2,0,1] on the [2,3,4] tensor of values
0..23 roundtrips through its inverse, restoring shape and data. -/
theorem C4_transpose_roundtrip_witness :
    (transpose t234 [2, 0, 1]).isOk = true ∧
    okShape (transpose t234 [2, 0, 1]) = permuteShape [2, 0, 1] t234.shape ∧
    (∀ i, i < 3 →
      (okShape (transpose t234 [2, 0, 1])).getD i 0 =
        t234.shape.getD ([2, 0, 1].getD i 0) 0) ∧
    okShape (transpose t234 [2, 0, 1] >>= fun t₁ => transpose t₁ (invPerm [2, 0, 1])) =
      t234.shape ∧
    okData 99 (transpose t234 [2, 0, 1] >>= fun t₁ => transpose t₁ (invPerm [2, 0, 1])) 5 =
      t234.data 5 := by
  have h := C4_transpose_roundtrip t234 [2, 0, 1] (by decide)
  exact ⟨h.1, h.2.1, h.2.2.1, h.2.2.2.2.1, h.2.2.2.2.2 5 (by decide) 99⟩

/-- Every entry of a replicate list is the replicated value. -/
theorem getD_replicate (n x i : Nat) (hi : i < n) :
    (List.replicate n x).getD i 0 = x := by
  have h : i < (List.replicate n x).length := by rw [List.length_replicate]; exact hi
  rw [List.getD_eq_getElem _ _ h]
  exact List.getElem_replicate x h

/-- Pointwise read of a zipWith of two lists, for any combining function. -/
theorem getD_zipWith_fn (f : Nat → Nat → Nat) (a b : List Nat) (i : Nat)
    (ha : i < a.length) (hb : i < b.length) :
    (List.zipWith f a b).getD i 0 = f (a.getD i 0) (b.getD i 0) := by
  have h : i < (List.zipWith f a b).length := by
    rw [List.length_zipWith]
    exact lt_min ha hb
  rw [List.getD_eq_getElem _ _ h, List.getElem_zipWith,
    ← List.getD_eq_getElem a 0 ha, ← List.getD_eq_getElem b 0 hb]

/-- Erasing the same position of two componentwise-ordered lists of equal
length preserves the lengths and the componentwise order. -/
theorem eraseIdx_pointwise (s j : List Nat) (a : Nat) (hlen : j.length = s.length)
    (hb : ∀ i, i < s.length → j.getD i 0 < s.getD i 0) :
    (j.eraseIdx a).length = (s.eraseIdx a).length ∧
    ∀ i, i < (s.eraseIdx a).length → (j.eraseIdx a).getD i 0 < (s.eraseIdx a).getD i 0 := by
  by_cases hc : a < s.length
  · constructor
    · rw [List.length_eraseIdx, List.length_eraseIdx, hlen]
    · intro i hi
      have hslen : (s.eraseIdx a).length = s.length - 1 := by
        rw [List.length_eraseIdx]
        simp [hc]
      by_cases hia : i < a
      · rw [getD_eraseIdx_lt s a i hia, getD_eraseIdx_lt j a i hia]
        exact hb i (by omega)
      · rw [getD_eraseIdx_ge s a i hc (by omega),
          getD_eraseIdx_ge j a i (by omega) (by omega)]
        exact hb (i + 1) (by omega)
  · have h1 : s.eraseIdx a = s := List.eraseIdx_eq_self.mpr (by omega)
    have h2 : j.eraseIdx a = j := List.eraseIdx_eq_self.mpr (by omega)
    rw [h1, h2]
    exact ⟨hlen, hb⟩

/-- Iterated erasures at the same positions preserve lengths and the
componentwise order. -/
theorem foldl_eraseIdx_pointwise (l : List Nat) (s j : List Nat)
    (hlen : j.length = s.length)
    (hb : ∀ i, i < s.length → j.getD i 0 < s.getD i 0) :
    (l.foldl (fun acc p => acc.eraseIdx p) j).length =
      (l.foldl (fun acc p => acc.eraseIdx p) s).length ∧
    ∀ i, i < (l.foldl (fun acc p => acc.eraseIdx p) s).length →
      (l.foldl (fun acc p => acc.eraseIdx p) j).getD i 0 <
        (l.foldl (fun acc p => acc.eraseIdx p) s).getD i 0 := by
  induction l generalizing s j with
  | nil => exact ⟨hlen, hb⟩
  | cons p rest ih =>
    obtain ⟨h1, h2⟩ := eraseIdx_pointwise s j p hlen hb
    exact ih (s.eraseIdx p) (j.eraseIdx p) h1 h2

/-- Folding erasures over a strictly descending in-range position list masks
out exactly those positions. -/
theorem foldl_eraseIdx_desc (l : List Nat) (j : List Nat)
    (hdesc : l.Pairwise fun a b => b < a) (hrange : ∀ a ∈ l, a < j.length) :
    l.foldl (fun acc p => acc.eraseIdx p) j = removeAxes j l := by
  induction l generalizing j with
  | nil => exact (removeAxes_nil j).symm
  | cons p rest ih =>
    have hp : p < j.length := hrange p (List.mem_cons_self _ _)
    have hrl : ∀ a ∈ rest, a < p := (List.pairwise_cons.mp hdesc).1
    have hrj : ∀ a ∈ rest, a < (j.eraseIdx p).length := by
      intro a ha
      have h1 := hrl a ha
      rw [List.length_eraseIdx]
      simp only [hp, if_pos]
      omega
    show rest.foldl (fun acc p => acc.eraseIdx p) (j.eraseIdx p) = _
    rw [ih (j.eraseIdx p) hdesc.of_cons hrj]
    exact removeAxes_eraseIdx j p rest hp hrl

/-- The data law of one unsqueeze: reading the inserted-axis tensor at an
in-range multi-index is reading the source with that coordinate dropped. -/
theorem unsqueeze_data_pointwise {α : Type} (t : Tensor α) (pos : Nat) (m : List Nat)
    (hlen : m.length = (t.shape.insertIdx pos 1).length)
    (hb : ∀ i, i < (t.shape.insertIdx pos 1).length →
      m.getD i 0 < (t.shape.insertIdx pos 1).getD i 0) :
    t.data (flatten t.shape
      ((unflatten (t.shape.insertIdx pos 1)
        (flatten (t.shape.insertIdx pos 1) m)).eraseIdx pos)) =
    t.data (flatten t.shape (m.eraseIdx pos)) := by
  rw [unflatten_flatten (t.shape.insertIdx pos 1) m hlen hb]

/-- Masking axes out of a zipWith is the zipWith of the masked lists. -/
theorem removeAxes_zipWith (f : Nat → Nat → Nat) (a b : List Nat) (axes : List Nat)
    (hlen : a.length = b.length) :
    removeAxes (List.zipWith f a b) axes =
      List.zipWith f (removeAxes a axes) (removeAxes b axes) := by
  unfold removeAxes
  have hz : (List.zipWith f a b).length = a.length := by
    rw [List.length_zipWith, ← hlen, Nat.min_self]
  rw [hz, ← hlen]
  rw [List.zipWith_map_left, List.zipWith_map_right, List.zipWith_same]
  apply List.map_congr_left
  intro x hx
  have hxa : x < a.length := List.mem_range.mp (List.mem_of_mem_filter hx)
  exact getD_zipWith_fn f a b x hxa (by omega)

/-- Every entry of a list with a positive product is positive. -/
theorem getD_pos_of_prod_pos (s : List Nat) (h : 0 < s.prod) :
    ∀ i, i < s.length → 0 < s.getD i 0 := by
  intro i hi
  rcases Nat.eq_zero_or_pos (s.getD i 0) with h0 | hpos
  · exfalso
    have hmem : (0 : Nat) ∈ s := by
      rw [← h0, List.getD_eq_getElem s 0 hi]
      exact List.getElem_mem hi
    rw [List.prod_eq_zero hmem] at h
    omega
  · exact hpos

/-- Data law of the whole add_axes insertion loop: reading the unsqueezed
tensor at an in-range multi-index is reading the source tensor with the
inserted coordinates dropped (erased from the highest inserted position down
to the lowest), and dropping those positions from the final shape recovers
the source shape. -/
theorem add_axes_loop_data {α : Type} (ps : List (Nat × Nat)) (output : Tensor α)
    (repeats : List Nat) (out2 : Tensor α) (reps2 : List Nat)
    (hvalid : validPositions output.shape.length ps)
    (hlt : ∀ q ∈ ps, q.1 < repeats.length)
    (heq : add_axes_loop output repeats ps = .ok (out2, reps2)) :
    ((ps.map fun q => q.1).reverse.foldl (fun acc p => acc.eraseIdx p) out2.shape
      = output.shape) ∧
    ∀ j, j.length = out2.shape.length →
      (∀ i, i < out2.shape.length → j.getD i 0 < out2.shape.getD i 0) →
      out2.data (flatten out2.shape j) =
        output.data (flatten output.shape
          ((ps.map fun q => q.1).reverse.foldl (fun acc p => acc.eraseIdx p) j)) := by
  induction ps generalizing output repeats with
  | nil =>
    have heq2 : (Except.ok (output, repeats) :
        Except EngineError (Tensor α × List Nat)) = .ok (out2, reps2) := heq
    injection heq2 with h
    rw [Prod.mk.injEq] at h
    obtain ⟨rfl, rfl⟩ := h
    exact ⟨rfl, fun j _ _ => rfl⟩
  | cons q rest ih =>
    obtain ⟨pos, len⟩ := q
    obtain ⟨hpos, hrest⟩ := hvalid
    have hposlen : pos < repeats.length := hlt (pos, len) (List.mem_cons_self _ _)
    rw [add_axes_loop_step output repeats pos len rest hpos, if_pos hposlen] at heq
    obtain ⟨hshape_ih, hdata_ih⟩ := ih ⟨output.shape.insertIdx pos 1,
        fun k => output.data (flatten output.shape
          ((unflatten (output.shape.insertIdx pos 1) k).eraseIdx pos))⟩
      (repeats.set pos len)
      (by
        show validPositions (output.shape.insertIdx pos 1).length rest
        rw [List.length_insertIdx pos output.shape hpos]
        exact hrest)
      (by
        intro q hq
        rw [List.length_set]
        exact hlt q (List.mem_cons_of_mem _ hq))
      heq
    have hrevsplit : (((pos, len) :: rest).map fun q => q.1).reverse =
        (rest.map fun q => q.1).reverse ++ [pos] := by
      rw [List.map_cons, List.reverse_cons]
    constructor
    · rw [hrevsplit, List.foldl_append, hshape_ih]
      show (output.shape.insertIdx pos 1).eraseIdx pos = output.shape
      exact List.eraseIdx_insertIdx pos output.shape
    · intro j hjlen hjb
      rw [hdata_ih j hjlen hjb, hrevsplit, List.foldl_append]
      obtain ⟨hmlen, hmb⟩ :=
        foldl_eraseIdx_pointwise ((rest.map fun q => q.1).reverse) out2.shape j hjlen hjb
      rw [hshape_ih] at hmlen hmb
      show output.data (flatten output.shape
          ((unflatten (output.shape.insertIdx pos 1)
            (flatten (output.shape.insertIdx pos 1)
              ((rest.map fun q => q.1).reverse.foldl (fun acc p => acc.eraseIdx p) j))).eraseIdx pos)) =
        output.data (flatten output.shape
          (((rest.map fun q => q.1).reverse.foldl (fun acc p => acc.eraseIdx p) j).eraseIdx pos))
      exact unsqueeze_data_pointwise output pos _ hmlen hmb

/-- C2 (amended): for insertion positions that are valid against the axis
numbering after all prior insertions, strictly increasing (no later
insertion at or below an earlier one), below the target rank, and whose
count reconciles the source rank with the target rank, add_axes succeeds,
the output rank is exactly the target rank, each inserted axis has exactly
its requested length, and the data tiles without distortion: reading the
output at any in-range flat index equals reading the source tensor at the
output multi-index with the inserted coordinates dropped (an inserted axis
has original length 1, so its repeated index i addresses source index
i mod 1 = 0) and every remaining coordinate taken modulo its original axis
length, for every default value of the extractor.  In particular the
[1,2,3] tensor of values 0..5 with add_axes(5, [(0,5),(3,3)]) yields shape
[5,1,2,3,3] with the original block tiled 5 by 3 times (the flat data
equals the tiling expected by the repository test). -/
theorem C2_add_axes_shape_and_tiling :
    (∀ (α : Type) (t : Tensor α) (naxes : Nat) (pos2len : List (Nat × Nat)),
      validPositions t.shape.length pos2len →
      pos2len.Pairwise (fun q q' => q.1 < q'.1) →
      (∀ q ∈ pos2len, q.1 < naxes) →
      t.shape.length + pos2len.length = naxes →
      (add_axes t naxes pos2len).isOk = true ∧
      (okShape (add_axes t naxes pos2len)).length = naxes ∧
      (∀ q ∈ pos2len, (okShape (add_axes t naxes pos2len)).getD q.1 0 = q.2) ∧
      (∀ k, k < (okShape (add_axes t naxes pos2len)).prod → ∀ d : α,
        okData d (add_axes t naxes pos2len) k =
          t.data (flatten t.shape
            (List.zipWith (fun ji di => ji % di)
              (removeAxes (unflatten (okShape (add_axes t naxes pos2len)) k)
                (pos2len.map fun q => q.1))
              t.shape)))) ∧
    okShape (add_axes t123 5 [(0, 5), (3, 3)]) = [5, 1, 2, 3, 3] ∧
    okDataList (add_axes t123 5 [(0, 5), (3, 3)]) 90 = tiled90 := by
  refine ⟨?_, by decide, by decide⟩
  intro α t naxes pos2len hvalid hinc hblt hrank
  obtain ⟨out', reps', heq, hl1, hl2, hpre, hspre, hrget, hsget⟩ :=
    add_axes_loop_strong pos2len t (List.replicate naxes 1) hvalid
      (by intro q hq; rw [List.length_replicate]; exact hblt q hq) hinc
  have hrepslen : reps'.length = naxes := by
    rw [hl2, List.length_replicate]
  have houtlen : out'.shape.length = naxes := by
    omega
  have hrep : add_axes t naxes pos2len = candle_repeat out' reps' :=
    add_axes_unfold_ok t naxes pos2len out' reps' heq
  have hrok := candle_repeat_ok out' reps' (by omega)
  rw [hrep, hrok]
  refine ⟨rfl, ?_, ?_, ?_⟩
  · show (List.zipWith (· * ·) reps' out'.shape).length = naxes
    rw [List.length_zipWith]
    omega
  · intro q hq
    show (List.zipWith (· * ·) reps' out'.shape).getD q.1 0 = q.2
    rw [getD_zipWith_mul reps' out'.shape q.1
      (by rw [hrepslen]; exact hblt q hq) (by rw [houtlen]; exact hblt q hq)]
    rw [hrget q hq, hsget q hq, Nat.mul_one]
  · intro k hk d
    have hk2 : k < (List.zipWith (· * ·) reps' out'.shape).prod := hk
    have hprodpos : 0 < (List.zipWith (· * ·) reps' out'.shape).prod := by omega
    have hSzlen : (List.zipWith (· * ·) reps' out'.shape).length = naxes := by
      rw [List.length_zipWith, hrepslen, houtlen, Nat.min_self]
    set j := unflatten (List.zipWith (· * ·) reps' out'.shape) k with hjdef
    have hjlen : j.length = naxes := by
      rw [hjdef, unflatten_length, hSzlen]
    have hjb := unflatten_getD_lt (List.zipWith (· * ·) reps' out'.shape) k hk2
    have hSzpos := getD_pos_of_prod_pos (List.zipWith (· * ·) reps' out'.shape) hprodpos
    have houtpos : ∀ i, i < out'.shape.length → 0 < out'.shape.getD i 0 := by
      intro i hi
      have h1 := hSzpos i (by omega)
      rw [getD_zipWith_mul reps' out'.shape i (by omega) hi] at h1
      rcases Nat.eq_zero_or_pos (out'.shape.getD i 0) with h0 | hp
      · rw [h0, Nat.mul_zero] at h1
        omega
      · exact hp
    set m := List.zipWith (fun ji di => ji % di) j out'.shape with hmdef
    have hmlen : m.length = out'.shape.length := by
      rw [hmdef, List.length_zipWith, hjlen, houtlen, Nat.min_self]
    have hmb : ∀ i, i < out'.shape.length → m.getD i 0 < out'.shape.getD i 0 := by
      intro i hi
      rw [hmdef, getD_zipWith_fn (fun ji di => ji % di) j out'.shape i (by omega) hi]
      exact Nat.mod_lt _ (houtpos i hi)
    obtain ⟨hshape_fold, hdata_law⟩ := add_axes_loop_data pos2len t
      (List.replicate naxes 1) out' reps' hvalid
      (by intro q hq; rw [List.length_replicate]; exact hblt q hq) heq
    have hdesc_pw : ((pos2len.map fun q => q.1).reverse).Pairwise fun a b => b < a := by
      rw [List.pairwise_reverse]
      exact List.pairwise_map.mpr hinc
    have hdesc_mem : ∀ a ∈ (pos2len.map fun q => q.1).reverse, a < naxes := by
      intro a ha
      rw [List.mem_reverse] at ha
      obtain ⟨q, hq, rfl⟩ := List.mem_map.mp ha
      exact hblt q hq
    rw [foldl_eraseIdx_desc _ out'.shape hdesc_pw
      (by intro a ha; rw [houtlen]; exact hdesc_mem a ha)] at hshape_fold
    have hshape_rm : removeAxes out'.shape (pos2len.map fun q => q.1) = t.shape :=
      (removeAxes_congr out'.shape _ _ fun i => List.mem_reverse.symm).trans hshape_fold
    show out'.data (flatten out'.shape m) =
      t.data (flatten t.shape
        (List.zipWith (fun ji di => ji % di)
          (removeAxes j (pos2len.map fun q => q.1)) t.shape))
    rw [hdata_law m hmlen hmb]
    rw [foldl_eraseIdx_desc _ m hdesc_pw
      (by intro a ha; rw [hmlen, houtlen]; exact hdesc_mem a ha)]
    rw [removeAxes_congr m _ _ fun i => List.mem_reverse]
    rw [hmdef, removeAxes_zipWith (fun ji di => ji % di) j out'.shape
      (pos2len.map fun q => q.1) (by omega)]
    rw [hshape_rm]

/-- C2 witness: the repository scenario instantiates the general statement:
target rank 5 with insertions (0,5) and (3,3) on the [1,2,3] tensor. -/
theorem C2_add_axes_shape_and_tiling_witness :
    (add_axes t123 5 [(0, 5), (3, 3)]).isOk = true ∧
    (okShape (add_axes t123 5 [(0, 5), (3, 3)])).length = 5 ∧
    (∀ q ∈ [(0, 5), (3, 3)], (okShape (add_axes t123 5 [(0, 5), (3, 3)])).getD q.1 0 = q.2) ∧
    (∀ k, k < (okShape (add_axes t123 5 [(0, 5), (3, 3)])).prod → ∀ d : Int,
      okData d (add_axes t123 5 [(0, 5), (3, 3)]) k =
        t123.data (flatten t123.shape
          (List.zipWith (fun ji di => ji % di)
            (removeAxes (unflatten (okShape (add_axes t123 5 [(0, 5), (3, 3)])) k)
              ([(0, 5), (3, 3)].map fun q => q.1))
            t123.shape))) :=
  C2_add_axes_shape_and_tiling.1 Int t123 5 [(0, 5), (3, 3)]
    (by decide) (by decide) (by decide) (by decide)

/-- C2 counterexample: without the strictly-increasing restriction the claim
fails.  On the [2] tensor, add_axes(3, [(1,5),(0,3)]) has positions that are
each valid against the numbering after the prior insertions, are below the
target rank, and reconcile the ranks, yet the call succeeds with shape
[3,10,1]: the axis requested at position 1 with length 5 does not exist, and
no axis of length 5 exists at all, because the second insertion at position
0 shifts the first inserted axis while repeats[1] multiplies the original
data axis. -/
theorem C2_add_axes_shape_and_tiling_counterexample :
    validPositions t2v.shape.length [(1, 5), (0, 3)] ∧
    (∀ q ∈ [(1, 5), (0, 3)], q.1 < 3) ∧
    t2v.shape.length + 2 = 3 ∧
    (add_axes t2v 3 [(1, 5), (0, 3)]).isOk = true ∧
    okShape (add_axes t2v 3 [(1, 5), (0, 3)]) = [3, 10, 1] ∧
    (okShape (add_axes t2v 3 [(1, 5), (0, 3)])).getD 1 0 ≠ 5 ∧
    (5 : Nat) ∉ okShape (add_axes t2v 3 [(1, 5), (0, 3)]) := by
  exact ⟨by decide, by decide, rfl, rfl, rfl, by decide, by decide⟩

/-- C8 (amended): when every position is below the target rank and valid for
its unsqueeze, an insertion count that does not reconcile the ranks makes
add_axes fail with the engine RankMismatch condition from the final repeat
pass.  A position exceeding the target rank, however, does not produce an
add_axes-level InvalidAxis check: if it is within the current rank the
unguarded repeats write panics (IndexOutOfBounds), and only if it exceeds
the current rank does the engine unsqueeze fail with InvalidAxis. -/
theorem C8_add_axes_error_conditions :
    (∀ (α : Type) (t : Tensor α) (naxes : Nat) (pos2len : List (Nat × Nat)),
      validPositions t.shape.length pos2len →
      (∀ q ∈ pos2len, q.1 < naxes) →
      t.shape.length + pos2len.length ≠ naxes →
      add_axes t naxes pos2len = .error .RankMismatch) ∧
    (∀ (α : Type) (t : Tensor α) (naxes pos len : Nat) (rest : List (Nat × Nat)),
      naxes ≤ pos → pos ≤ t.shape.length →
      add_axes t naxes ((pos, len) :: rest) = .error .IndexOutOfBounds) ∧
    (∀ (α : Type) (t : Tensor α) (naxes pos len : Nat) (rest : List (Nat × Nat)),
      t.shape.length < pos →
      add_axes t naxes ((pos, len) :: rest) = .error .InvalidAxis) := by
  refine ⟨?_, ?_, ?_⟩
  · intro α t naxes pos2len hvalid hblt hrank
    obtain ⟨out', reps', heq, hl1, hl2⟩ :=
      add_axes_loop_ok pos2len t (List.replicate naxes 1) hvalid
        (by intro q hq; rw [List.length_replicate]; exact hblt q hq)
    rw [add_axes_unfold_ok t naxes pos2len out' reps' heq]
    apply candle_repeat_err
    rw [hl2, List.length_replicate, hl1]
    omega
  · intro α t naxes pos len rest h1 h2
    exact add_axes_first_pos_oob t naxes pos len rest h1 h2
  · intro α t naxes pos len rest h2
    exact add_axes_first_pos_invalid t naxes pos len rest h2

/-- C8 witness: concrete instances of the three amended failure behaviors. -/
theorem C8_add_axes_error_conditions_witness :
    add_axes t2v 2 ([] : List (Nat × Nat)) = .error .RankMismatch ∧
    add_axes t2v 1 [(1, 7)] = .error .IndexOutOfBounds ∧
    add_axes t2v 1 [(3, 2)] = .error .InvalidAxis :=
  ⟨C8_add_axes_error_conditions.1 Int t2v 2 [] (by decide) (by decide) (by decide),
   C8_add_axes_error_conditions.2.1 Int t2v 1 1 7 [] (by decide) (by decide),
   C8_add_axes_error_conditions.2.2 Int t2v 1 3 2 [] (by decide)⟩

/-- C8 counterexample: on the [2,3] tensor, add_axes(1, [(2,4)]) has a
position exceeding the target rank 1, yet it fails with the IndexOutOfBounds
panic of the unguarded repeats write, not with an InvalidAxis condition (and
not with RankMismatch). -/
theorem C8_add_axes_error_conditions_counterexample :
    add_axes t23 1 [(2, 4)] = .error .IndexOutOfBounds ∧
    add_axes t23 1 [(2, 4)] ≠ .error .InvalidAxis ∧
    add_axes t23 1 [(2, 4)] ≠ .error .RankMismatch := by
  have h0 : add_axes t23 1 [(2, 4)] = .error .IndexOutOfBounds := rfl
  refine ⟨h0, ?_, ?_⟩
  · rw [h0]
    intro hc
    injection hc with h2
    exact absurd h2 (by decide)
  · rw [h0]
    intro hc
    injection hc with h2
    exact absurd h2 (by decide)

/-- C10 (amended): the repeats vector of add_axes has one entry per target
axis, so when every supplied position is below the target rank the unguarded
repeats[axis_pos] write is in bounds and the slice-indexing panic cannot
occur.  A position at or above the target rank hits the unguarded index
before any engine-level error only when it is also within the current rank
of the tensor; a position beyond the current rank makes the engine unsqueeze
fail with InvalidAxis before the index is reached. -/
theorem C10_add_axes_repeats_indexing :
    (∀ (α : Type) (t : Tensor α) (naxes : Nat) (pos2len : List (Nat × Nat)),
      (∀ q ∈ pos2len, q.1 < naxes) →
      add_axes t naxes pos2len ≠ .error .IndexOutOfBounds) ∧
    (∀ (α : Type) (t : Tensor α) (naxes pos len : Nat) (rest : List (Nat × Nat)),
      naxes ≤ pos → pos ≤ t.shape.length →
      add_axes t naxes ((pos, len) :: rest) = .error .IndexOutOfBounds) ∧
    (∀ (α : Type) (t : Tensor α) (naxes pos len : Nat) (rest : List (Nat × Nat)),
      naxes ≤ pos → t.shape.length < pos →
      add_axes t naxes ((pos, len) :: rest) = .error .InvalidAxis) := by
  refine ⟨?_, ?_, ?_⟩
  · intro α t naxes pos2len hblt
    have hno := add_axes_loop_no_oob pos2len t (List.replicate naxes 1)
      (by intro q hq; rw [List.length_replicate]; exact hblt q hq)
    cases hl : add_axes_loop t (List.replicate naxes 1) pos2len with
    | error e =>
      rw [add_axes_unfold_err t naxes pos2len e hl]
      intro hc
      injection hc with h2
      rw [h2] at hl
      exact hno hl
    | ok pr =>
      obtain ⟨o, r⟩ := pr
      rw [add_axes_unfold_ok t naxes pos2len o r hl]
      unfold candle_repeat
      by_cases h : r.length = o.shape.length
      · rw [if_pos h]
        exact fun hc => Except.noConfusion hc
      · rw [if_neg h]
        intro hc
        injection hc with h2
        exact absurd h2 (by decide)
  · intro α t naxes pos len rest h1 h2
    exact add_axes_first_pos_oob t naxes pos len rest h1 h2
  · intro α t naxes pos len rest h1 h2
    exact add_axes_first_pos_invalid t naxes pos len rest h2

/-- C10 witness: concrete instances of the three conjuncts. -/
theorem C10_add_axes_repeats_indexing_witness :
    add_axes t23 2 [(0, 4), (1, 6)] ≠ .error .IndexOutOfBounds ∧
    add_axes t23 1 [(2, 4)] = .error .IndexOutOfBounds ∧
    add_axes t23 4 [(5, 2)] = .error .InvalidAxis :=
  ⟨C10_add_axes_repeats_indexing.1 Int t23 2 [(0, 4), (1, 6)] (by decide),
   C10_add_axes_repeats_indexing.2.1 Int t23 1 2 4 [] (by decide) (by decide),
   C10_add_axes_repeats_indexing.2.2 Int t23 4 5 2 [] (by decide) (by decide)⟩

/-- C10 counterexample: a position at or above the target rank does not
always hit the unguarded index before an engine-level error: on the [2]
tensor, add_axes(1, [(3,2)]) fails inside the engine unsqueeze with
InvalidAxis before the repeats write is reached. -/
theorem C10_add_axes_repeats_indexing_counterexample :
    add_axes t2v 1 [(3, 2)] = .error .InvalidAxis ∧
    add_axes t2v 1 [(3, 2)] ≠ .error .IndexOutOfBounds := by
  have h0 : add_axes t2v 1 [(3, 2)] = .error .InvalidAxis := rfl
  refine ⟨h0, ?_⟩
  rw [h0]
  intro hc
  injection hc with h2
  exact absurd h2 (by decide)
